import Mathlib

/-
Verification of `Lib/asyncio/asyncgraph.py`: the logical call-graph
construction algorithm `get_async_graph` and the GraphViz serializer
`async_graph_to_dot`.

Shallow embedding notes.  Graph nodes have reference identity and a mutable
`awaited_by` set in the source; we model the node heap as an arena: node
identity is the index (`Nat`) at which the node was allocated, the arena
records each node's kind, and the `awaited_by` sets are kept as one global
set of edges `(n, m)` meaning `m ∈ n.awaited_by`.  Python frames are modelled
by identifiers; the caller's frame chain (`sys._getframe(1)` followed by the
`f_back` links) is a list of frame ids, the head being the current frame and
the empty list standing for `None`.  Python `set` iteration order is
unspecified, so iterating the lists that model those sets in list order is a
faithful refinement; `list.pop()/append` is LIFO, modelled by a cons/head
stack.  The abstract hooks of the runtime (the running loop, the current
task, `get_awaiters`, `get_coro().cr_frame`) are parameters in `Env`.
-/

namespace AsyncGraph

/-- Kinds of graph vertices: `AsyncGraphNodeFrame`,
`AsyncGraphNodeAsyncGraphAwaitable` and `AsyncGraphNodeError`. -/
inductive NodeKind where
  | frameN (f : Nat)
  | awaitableN (a : Nat)
  | errorN (text : String)
deriving DecidableEq, Repr

/-- The node arena: node `n` has kind `kinds[n]`; `(n, m) ∈ edges` models
`m ∈ n.awaited_by`. -/
structure GState where
  kinds : List NodeKind
  edges : List (Nat × Nat)
deriving DecidableEq, Repr

def emptyG : GState := ⟨[], []⟩

/-- Allocate a node (`AsyncGraphNode.__init__` with an empty `awaited_by`). -/
def newNode (g : GState) (k : NodeKind) : GState × Nat :=
  ({ g with kinds := g.kinds ++ [k] }, g.kinds.length)

/-- `n.awaited_by.add(m)`: a set add, a no-op when present. -/
def addEdge (g : GState) (n m : Nat) : GState :=
  if (n, m) ∈ g.edges then g else { g with edges := (n, m) :: g.edges }

/-- The `awaited_by` set of node `n`, as a list. -/
def awaitedBy (g : GState) (n : Nat) : List Nat :=
  (g.edges.filter (fun e => e.1 == n)).map (fun e => e.2)

def kindOf (g : GState) (n : Nat) : NodeKind :=
  g.kinds.getD n (NodeKind.errorN "")

/-- The runtime environment: the finite universe of awaitables, each
awaitable's `get_awaiters()` set, the local frame chain its expansion
exposes, and `get_coro().cr_frame`. -/
structure Env where
  univ : List Nat
  awaiters : Nat → List Nat
  localFrames : Nat → List Nat
  entryFrame : Nat → Nat

/-- Wrap each frame in a node and chain it onto the node built so far
(each new frame node's `awaited_by` pointing at the previous node). -/
def frameChain : GState × Nat → List Nat → GState × Nat
  | s, [] => s
  | s, f :: fs =>
    let r := newNode s.1 (NodeKind.frameN f)
    frameChain (addEdge r.1 r.2 s.2, r.2) fs

/-- Modelled from the spec: the concrete `makeAsyncGraphNodes`
implementations (tasks, futures) live outside this repository slice; per the
spec an awaitable expands into a vertex for the awaitable itself (the tail,
whose `get_awaiters` delegates to the awaitable) plus a chain of frame nodes
for its local call stack, the head being the innermost frame, each node
awaited by the next one toward the tail.  Returns `(state, tail, head)`. -/
def makeAsyncGraphNodes (env : Env) (a : Nat) (g : GState) :
    GState × Nat × Nat :=
  let p := newNode g (NodeKind.awaitableN a)
  let q := frameChain p (env.localFrames a)
  (q.1, p.2, q.2)

/-- `node.get_awaiters()`: delegated to the awaitable for awaitable nodes,
empty for frame nodes and for the error nodes this module creates. -/
def nodeAwaiters (env : Env) (g : GState) (n : Nat) : List Nat :=
  match kindOf g n with
  | NodeKind.awaitableN a => env.awaiters a
  | _ => []

/-- Working state of the cooperative-mode drain: the arena, `node_q`,
`terminal_async_nodes` and `awaitable_to_head_node`. -/
structure DrainSt where
  g : GState
  nodeQ : List Nat
  terminal : List Nat
  a2h : List (Nat × Nat)
deriving DecidableEq, Repr

/-- Dictionary lookup in `awaitable_to_head_node`. -/
def lookupA : List (Nat × Nat) → Nat → Option Nat
  | [], _ => none
  | p :: r, a => if p.1 = a then some p.2 else lookupA r a

/-- Set insertion for `terminal_async_nodes.add`. -/
def insertN (n : Nat) (l : List Nat) : List Nat :=
  if n ∈ l then l else n :: l

/-- The `for child_awaitable in awaiters` body of the drain: on a map hit
only an edge to the recorded node is added; on a miss the child is expanded,
recorded (as `child_node`), enqueued, and an edge to its head is added. -/
def drainChildren (env : Env) (node : Nat) : List Nat → DrainSt → DrainSt
  | [], st => st
  | a :: rest, st =>
    match lookupA st.a2h a with
    | some h => drainChildren env node rest { st with g := addEdge st.g node h }
    | none =>
      let r := makeAsyncGraphNodes env a st.g
      drainChildren env node rest
        { g := addEdge r.1 node r.2.2
          nodeQ := r.2.1 :: st.nodeQ
          terminal := st.terminal
          a2h := (a, r.2.1) :: st.a2h }

/-- One iteration of the drain on a popped node. -/
def drainStep (env : Env) (node : Nat) (st : DrainSt) : DrainSt :=
  let as := nodeAwaiters env st.g node
  drainChildren env node as
    { st with terminal := if as.isEmpty then insertN node st.terminal else st.terminal }

/-- The `while node_q:` loop, with explicit fuel; `none` means the fuel ran
out before the worklist drained. -/
def drainLoop (env : Env) : Nat → DrainSt → Option DrainSt
  | 0, st =>
    match st.nodeQ with
    | [] => some st
    | _ :: _ => none
  | fuel + 1, st =>
    match st.nodeQ with
    | [] => some st
    | node :: q => drainLoop env fuel (drainStep env node { st with nodeQ := q })

def exitText : String := "Could not find exit frame for current task"

def entryText : String := "Could not link current task to entry point."

/-- Result of the top graft: arena, `head_node` (possibly `None`),
`tail_node`, and the remaining frame chain. -/
structure TopRes where
  g : GState
  headOpt : Option Nat
  tailN : Nat
  chain : List Nat
deriving DecidableEq, Repr

/-- The `while frame is not cur_task_exit_frame` loop of the top graft:
wraps caller frames until the exit frame is met, terminating with the
exit-frame `ErrorNode` when the chain is exhausted first. -/
def topGraftLoop (exitF : Nat) :
    GState → Option Nat → Nat → List Nat → TopRes
  | g, headOpt, tailN, [] => ⟨g, headOpt, tailN, []⟩
  | g, headOpt, tailN, f :: rest =>
    if f = exitF then ⟨g, headOpt, tailN, f :: rest⟩
    else
      let r := newNode g (NodeKind.frameN f)
      let g1 := match headOpt with
        | none => r.1
        | some _ => addEdge r.1 tailN r.2
      let headOpt1 := match headOpt with
        | none => some r.2
        | some h => some h
      match rest with
      | [] =>
        let e := newNode g1 (NodeKind.errorN exitText)
        ⟨addEdge e.1 r.2 e.2, headOpt1, e.2, []⟩
      | f2 :: rest2 => topGraftLoop exitF g1 headOpt1 r.2 (f2 :: rest2)

/-- The top graft (source lines 176–194): runs only when the task's head
node is a frame node, and always ends by adding `task_head_node` to the
final tail's `awaited_by`. -/
def topGraft (g : GState) (taskNode taskHead : Nat) (chain : List Nat) :
    TopRes :=
  match kindOf g taskHead with
  | NodeKind.frameN exitF =>
    let r := topGraftLoop exitF g none taskHead chain
    ⟨addEdge r.g r.tailN taskHead, r.headOpt, r.tailN, r.chain⟩
  | _ => ⟨g, some taskHead, taskNode, chain⟩

/-- The entry-frame search loop (source lines 199–203): the frames strictly
beyond the first occurrence of the entry frame, `[]` when it is absent or
last. -/
def entrySearch (entryF : Nat) : List Nat → List Nat
  | [] => []
  | f :: rest => if f = entryF then rest else entrySearch entryF rest

/-- The chaining loop of the bottom graft: the first wrapped frame fans in
from every terminal node, later ones chain linearly. -/
def bottomLoop (terminal : List Nat) :
    GState → Option Nat → List Nat → GState
  | g, _, [] => g
  | g, tailOpt, f :: rest =>
    let r := newNode g (NodeKind.frameN f)
    let g1 := match tailOpt with
      | none => terminal.foldl (fun h t => addEdge h t r.2) r.1
      | some t => addEdge r.1 t r.2
    bottomLoop terminal g1 (some r.2) rest

/-- The bottom graft (source lines 196–219), applied to the outcome of the
entry-frame search: on an exhausted chain the entry-point `ErrorNode` is
attached to the current tail, otherwise the remaining frames are wrapped. -/
def bottomGraft (g : GState) (tailN : Nat) (terminal : List Nat) :
    List Nat → GState
  | [] =>
    let e := newNode g (NodeKind.errorN entryText)
    addEdge e.1 tailN e.2
  | f :: rest => bottomLoop terminal g none (f :: rest)

/-- Result of `get_async_graph`: a normal return carries the arena and the
returned head node (Python may return `None` here); `assertFail` models the
`assert len(terminal_async_nodes) > 0` failing; `fuelOut` is an artifact of
the fuelled drain. -/
inductive GRes where
  | ok (g : GState) (head : Option Nat)
  | assertFail
  | fuelOut
deriving DecidableEq, Repr

/-- The fallback-mode stack walk (source lines 135–139). -/
def fallbackWalk : GState → Nat → List Nat → GState
  | g, _, [] => g
  | g, tailN, f :: rest =>
    let r := newNode g (NodeKind.frameN f)
    fallbackWalk (addEdge r.1 tailN r.2) r.2 rest

/-- Fuel that provably suffices for the drain on a closed environment. -/
def coopFuel (env : Env) : Nat := 2 * env.univ.length + 1

/-- Expansion of the current task and the initial drain state
(source lines 146–153).  Returns `(state, task_node, task_head_node)`. -/
def coopInit (env : Env) (cur : Nat) : DrainSt × Nat × Nat :=
  let r := makeAsyncGraphNodes env cur emptyG
  (⟨r.1, [r.2.1], [], [(cur, r.2.2)]⟩, r.2.1, r.2.2)

/-- `get_async_graph`: `curOpt` is `none` when no loop is running or no task
is current; `f0 :: frest` is the caller's frame chain from `sys._getframe(1)`
to the entry point. -/
def get_async_graph (env : Env) (curOpt : Option Nat) (f0 : Nat)
    (frest : List Nat) : GRes :=
  match curOpt with
  | none =>
    let r := newNode emptyG (NodeKind.frameN f0)
    GRes.ok (fallbackWalk r.1 r.2 frest) (some r.2)
  | some cur =>
    let ci := coopInit env cur
    match drainLoop env (coopFuel env) ci.1 with
    | none => GRes.fuelOut
    | some st =>
      if st.terminal.isEmpty then GRes.assertFail
      else
        let tr := topGraft st.g ci.2.1 ci.2.2 (f0 :: frest)
        let chain3 := entrySearch (env.entryFrame cur) tr.chain
        GRes.ok (bottomGraft tr.g tr.tailN st.terminal chain3) tr.headOpt

/-- All edges point between allocated nodes. -/
def EdgesBounded (g : GState) : Prop :=
  ∀ e ∈ g.edges, e.1 < g.kinds.length ∧ e.2 < g.kinds.length

/-- A one-awaitable environment whose single task awaits itself: its awaiter
set is nonempty, so the drain records no terminal node. -/
def Ecyc : Env :=
  { univ := [0]
    awaiters := fun _ => [0]
    localFrames := fun _ => []
    entryFrame := fun _ => 100 }

/-- The diamond environment: the current task 0 is awaited by awaitables 1
and 2, both of which are awaited by awaitable 3; awaitable 3 exposes one
local frame, so the head node of its expansion differs from its tail node. -/
def E1 : Env :=
  { univ := [0, 1, 2, 3]
    awaiters := fun a => if a = 0 then [1, 2] else if a = 3 then [] else [3]
    localFrames := fun a => if a = 3 then [10] else []
    entryFrame := fun _ => 100 }

/-- The drain state `get_async_graph` reaches on `E1` (computed). -/
def ST1 : DrainSt :=
  { g := { kinds := [NodeKind.awaitableN 0, NodeKind.awaitableN 1,
             NodeKind.awaitableN 2, NodeKind.awaitableN 3, NodeKind.frameN 10]
           edges := [(1, 3), (2, 4), (4, 3), (0, 2), (0, 1)] }
    nodeQ := []
    terminal := [3]
    a2h := [(3, 3), (2, 2), (1, 1), (0, 0)] }

/-- One matching step of Python `str.replace`: when the (nonempty) pattern
is a prefix of `s`, the remainder after it. -/
def stripP (pat s : List Char) : Option (List Char) :=
  match pat with
  | [] => none
  | _ :: _ => if pat.isPrefixOf s then some (s.drop pat.length) else none

/-- Python `str.replace` with explicit fuel: scan left to right, replacing
non-overlapping occurrences of the pattern. -/
def pyReplaceF (pat rep : List Char) : Nat → List Char → List Char
  | 0, s => s
  | _ + 1, [] => []
  | fuel + 1, c :: s =>
    match stripP pat (c :: s) with
    | some rest => rep ++ pyReplaceF pat rep fuel rest
    | none => c :: pyReplaceF pat rep fuel s

/-- Python `s.replace(pat, rep)` for a nonempty pattern. -/
def pyReplace (s pat rep : List Char) : List Char :=
  pyReplaceF pat rep s.length s

/-- The label-escaping expression of `async_graph_to_dot` (source line 249):
`str(node).replace("\n", '\\n').replace('"', '\"')`.  The Python literal
`'\"'` in the second call denotes a plain quote character, so that call
replaces a quote by itself. -/
def dotEscape (s : List Char) : List Char :=
  pyReplace (pyReplace s ['\n'] ['\\', 'n']) ['"'] ['"']

/-- Validity invariant of the drain state: all edges, queued node ids,
map values and terminal node ids refer to allocated nodes. -/
def DInv (st : DrainSt) : Prop :=
  EdgesBounded st.g ∧ (∀ n ∈ st.nodeQ, n < st.g.kinds.length) ∧
  (∀ p ∈ st.a2h, p.2 < st.g.kinds.length) ∧
  (∀ n ∈ st.terminal, n < st.g.kinds.length)

/-- Reachability along `awaited_by` edges. -/
def Reach (g : GState) (a b : Nat) : Prop :=
  Relation.ReflTransGen (fun x y => y ∈ awaitedBy g x) a b

/-- The graph `get_async_graph` produces on `E1` with chain `[20, 21, 22]`
(computed). -/
def G4 : GState :=
  { kinds := [NodeKind.awaitableN 0, NodeKind.awaitableN 1,
      NodeKind.awaitableN 2, NodeKind.awaitableN 3, NodeKind.frameN 10,
      NodeKind.errorN entryText]
    edges := [(0, 5), (1, 3), (2, 4), (4, 3), (0, 2), (0, 1)] }

/-- A task with one exposed local frame and no awaiters; its exit frame 50
and entry frame 100 never occur in the caller's chain. -/
def E2 : Env :=
  { univ := [0]
    awaiters := fun _ => []
    localFrames := fun _ => [50]
    entryFrame := fun _ => 100 }

/-- The drain state reached on `E2` (computed). -/
def ST2 : DrainSt :=
  { g := { kinds := [NodeKind.awaitableN 0, NodeKind.frameN 50]
           edges := [(1, 0)] }
    nodeQ := []
    terminal := [0]
    a2h := [(0, 1)] }

/-- A task with no local frames and no awaiters whose entry frame 21 sits in
the middle of the caller's chain `[20, 21, 22]`. -/
def E3 : Env :=
  { univ := [0]
    awaiters := fun _ => []
    localFrames := fun _ => []
    entryFrame := fun _ => 21 }

/-- The drain state reached on `E3` (computed). -/
def ST3 : DrainSt :=
  { g := { kinds := [NodeKind.awaitableN 0], edges := [] }
    nodeQ := []
    terminal := [0]
    a2h := [(0, 0)] }

/-- Number of universe awaitables not yet recorded in
`awaitable_to_head_node`: the potential of the drain's termination
measure. -/
def missingCount (env : Env) (a2h : List (Nat × Nat)) : Nat :=
  env.univ.countP (fun a => (lookupA a2h a).isNone)

/-- One emitted line of `async_graph_to_dot`.  The `n`-fields record which
graph nodes the line is about (specification ghost data); rendering uses
only the assigned integer ids and the label. -/
inductive DotLine where
  | vertex (n : Nat) (i : Nat) (label : List Char)
  | edge (srcN dstN : Nat) (srcId dstId : Nat)
deriving DecidableEq, Repr

/-- Serializer state: emitted lines, the `seen` set, `next_id` and the
`node_to_id` map. -/
structure DotSt where
  out : List DotLine
  seen : List Nat
  nextId : Nat
  ids : List (Nat × Nat)
deriving DecidableEq, Repr

/-- The nested `node_id` helper: ids are assigned lazily, starting at 1. -/
def nodeIdF (st : DotSt) (n : Nat) : DotSt × Nat :=
  match lookupA st.ids n with
  | some i => (st, i)
  | none =>
    ({ st with nextId := st.nextId + 1, ids := (n, st.nextId + 1) :: st.ids },
      st.nextId + 1)

/-- `str(node)`: frame and awaitable texts are runtime-supplied, error nodes
render their text. -/
def nodeText (ftext atext : Nat → List Char) : NodeKind → List Char
  | NodeKind.frameN f => ftext f
  | NodeKind.awaitableN a => atext a
  | NodeKind.errorN t => t.data

/-- The `for child in node.awaited_by` loop: assign the child its id, emit
the edge line, push the child on the worklist. -/
def dotChildren (srcN srcId : Nat) :
    List Nat → DotSt × List Nat → DotSt × List Nat
  | [], p => p
  | c :: cs, (st, q) =>
    let r := nodeIdF st c
    dotChildren srcN srcId cs
      ({ r.1 with out := r.1.out ++ [DotLine.edge srcN c srcId r.2] },
        c :: q)

/-- The `while q:` loop of `async_graph_to_dot`, with explicit fuel. -/
def dotLoop (g : GState) (ftext atext : Nat → List Char) :
    Nat → List Nat → DotSt → Option DotSt
  | 0, q, st =>
    match q with
    | [] => some st
    | _ :: _ => none
  | fuel + 1, q, st =>
    match q with
    | [] => some st
    | n :: q2 =>
      if n ∈ st.seen then dotLoop g ftext atext fuel q2 st
      else
        let st1 : DotSt := { st with seen := n :: st.seen }
        let r := nodeIdF st1 n
        let st2 : DotSt := { r.1 with out := r.1.out ++
          [DotLine.vertex n r.2
            (dotEscape (nodeText ftext atext (kindOf g n)))] }
        let p := dotChildren n r.2 (awaitedBy g n) (st2, q2)
        dotLoop g ftext atext fuel p.2 p.1

/-- Sum, over the unvisited nodes, of out-degree plus one: the potential of
the serializer's termination measure. -/
def pendingDeg (g : GState) (seen : List Nat) : Nat :=
  (((List.range g.kinds.length).filter (fun n => decide (n ∉ seen))).map
    (fun n => (awaitedBy g n).length + 1)).sum

def dotMeasure (g : GState) (seen : List Nat) (q : List Nat) : Nat :=
  q.length + pendingDeg g seen

def renderNat (n : Nat) : List Char := (Nat.repr n).data

/-- Text of one emitted line (vertex lines carry two leading spaces, as in
the source's f-strings). -/
def renderLine : DotLine → List Char
  | DotLine.vertex _ i label =>
    ("  n".data ++ renderNat i) ++ (" [label=".data ++ ['"']) ++ label ++
      (['"'] ++ " shape=box];".data ++ ['\n'])
  | DotLine.edge _ _ si di =>
    ("n".data ++ renderNat si) ++ " -> n".data ++ renderNat di ++
      ([';'] ++ ['\n'])

/-- `async_graph_to_dot`, run with provably sufficient fuel: the document is
the opening token, the emitted lines, and the closing token. -/
def async_graph_to_dot (g : GState) (ftext atext : Nat → List Char)
    (head : Nat) : Option (List Char) :=
  match dotLoop g ftext atext (dotMeasure g [] [head]) [head] ⟨[], [], 0, []⟩
    with
  | none => none
  | some st =>
    some (("digraph \x7b".data ++ ['\n']) ++ (st.out.map renderLine).join ++
      ("\x7d".data ++ ['\n']))

def isVertexOf (n : Nat) : DotLine → Bool
  | DotLine.vertex m _ _ => m == n
  | _ => false

def isEdgeOf (n m : Nat) : DotLine → Bool
  | DotLine.edge sn dn _ _ => sn == n && dn == m
  | _ => false

/-- Loop invariant for the serializer worklist: everything queued or seen is
a valid reachable node, `seen` is duplicate-free and closed up to the queue,
the head is accounted for, and the emitted lines contain exactly one vertex
line per seen node and one edge line per edge leaving a seen node. -/
def DotInv (g : GState) (head : Nat) (st : DotSt) (q : List Nat) : Prop :=
  (∀ n ∈ q, n < g.kinds.length ∧ Reach g head n) ∧
  (∀ n ∈ st.seen, n < g.kinds.length ∧ Reach g head n) ∧
  st.seen.Nodup ∧
  (∀ n ∈ st.seen, ∀ m ∈ awaitedBy g n, m ∈ st.seen ∨ m ∈ q) ∧
  (head ∈ st.seen ∨ head ∈ q) ∧
  (∀ n, st.out.countP (isVertexOf n) = if n ∈ st.seen then 1 else 0) ∧
  (∀ n m, st.out.countP (isEdgeOf n m) =
    if n ∈ st.seen ∧ m ∈ awaitedBy g n then 1 else 0)

theorem newNode_kinds (g : GState) (k : NodeKind) :
    (newNode g k).1.kinds = g.kinds ++ [k] := rfl

theorem newNode_edges (g : GState) (k : NodeKind) :
    (newNode g k).1.edges = g.edges := rfl

theorem newNode_id (g : GState) (k : NodeKind) :
    (newNode g k).2 = g.kinds.length := rfl

theorem addEdge_kinds (g : GState) (n m : Nat) :
    (addEdge g n m).kinds = g.kinds := by
  unfold addEdge; split <;> rfl

theorem kindOf_append (g : GState) (l : List NodeKind) (n : Nat)
    (h : n < g.kinds.length) :
    kindOf { g with kinds := g.kinds ++ l } n = kindOf g n := by
  simp only [kindOf]
  rw [List.getD_eq_getElem?_getD, List.getD_eq_getElem?_getD,
    List.getElem?_append, if_pos h]

theorem kindOf_newNode_self (g : GState) (k : NodeKind) :
    kindOf (newNode g k).1 (newNode g k).2 = k := by
  simp [kindOf, newNode, List.getD_append_right]

theorem kindOf_newNode_old (g : GState) (k : NodeKind) (n : Nat)
    (h : n < g.kinds.length) :
    kindOf (newNode g k).1 n = kindOf g n := by
  simp [newNode]
  exact kindOf_append g [k] n h

theorem awaitedBy_addEdge_same (g : GState) (n m : Nat) :
    awaitedBy (addEdge g n m) n = if (n, m) ∈ g.edges
      then awaitedBy g n else m :: awaitedBy g n := by
  unfold addEdge
  split <;> simp_all [awaitedBy]

theorem awaitedBy_addEdge_other (g : GState) (n m x : Nat) (h : x ≠ n) :
    awaitedBy (addEdge g n m) x = awaitedBy g x := by
  unfold addEdge
  split
  · rfl
  · have hne : ((n, m).1 == x) = false := by
      rw [beq_eq_false_iff_ne]
      exact Ne.symm h
    simp [awaitedBy, List.filter_cons, hne]

theorem awaitedBy_newNode (g : GState) (k : NodeKind) (x : Nat) :
    awaitedBy (newNode g k).1 x = awaitedBy g x := rfl

theorem awaitedBy_fresh (g : GState) (hb : EdgesBounded g) (n : Nat)
    (h : g.kinds.length ≤ n) : awaitedBy g n = [] := by
  unfold awaitedBy
  have hf : g.edges.filter (fun e => e.1 == n) = [] := by
    rw [List.filter_eq_nil_iff]
    intro e he
    obtain ⟨h1, _⟩ := hb e he
    intro hEq
    simp only [beq_iff_eq] at hEq
    omega
  rw [hf]
  rfl

theorem edgesBounded_empty : EdgesBounded emptyG := by
  intro e he; simp [emptyG] at he

theorem edgesBounded_newNode (g : GState) (k : NodeKind)
    (hb : EdgesBounded g) : EdgesBounded (newNode g k).1 := by
  intro e he
  obtain ⟨h1, h2⟩ := hb e he
  have hk : (newNode g k).1.kinds.length = g.kinds.length + 1 := by
    simp [newNode]
  exact ⟨hk ▸ Nat.lt_succ_of_lt h1, hk ▸ Nat.lt_succ_of_lt h2⟩

theorem edgesBounded_addEdge (g : GState) (n m : Nat)
    (hb : EdgesBounded g) (hn : n < g.kinds.length)
    (hm : m < g.kinds.length) : EdgesBounded (addEdge g n m) := by
  intro e he
  rw [addEdge_kinds]
  unfold addEdge at he
  split at he
  · exact hb e he
  · simp at he
    rcases he with rfl | h2
    · exact ⟨hn, hm⟩
    · exact hb e h2

theorem mem_awaitedBy (g : GState) (n m : Nat) :
    m ∈ awaitedBy g n ↔ (n, m) ∈ g.edges := by
  unfold awaitedBy
  simp only [List.mem_map, List.mem_filter, beq_iff_eq]
  constructor
  · rintro ⟨⟨a, b⟩, ⟨hm, ha⟩, hb⟩
    simp at ha hb
    subst ha; subst hb
    exact hm
  · intro h
    exact ⟨(n, m), ⟨h, rfl⟩, rfl⟩

theorem mem_awaitedBy_addEdge (g : GState) (n m : Nat) :
    m ∈ awaitedBy (addEdge g n m) n := by
  rw [mem_awaitedBy]
  unfold addEdge
  split <;> simp_all

theorem not_mem_edges_of_target_big (g : GState) (hb : EdgesBounded g)
    (t m : Nat) (hm : g.kinds.length ≤ m) : (t, m) ∉ g.edges := by
  intro hmem
  obtain ⟨_, h2⟩ := hb (t, m) hmem
  simp at h2
  omega

/-- Full characterization of the fallback stack walk. -/
theorem fallbackWalk_spec (fs : List Nat) (g : GState) (t : Nat)
    (hb : EdgesBounded g) (ht : t < g.kinds.length) :
    (fallbackWalk g t fs).kinds = g.kinds ++ fs.map NodeKind.frameN ∧
    EdgesBounded (fallbackWalk g t fs) ∧
    (∀ x, x ≠ t → awaitedBy (fallbackWalk g t fs) x =
      if x < g.kinds.length then awaitedBy g x
      else if x - g.kinds.length + 1 < fs.length then [x + 1] else []) ∧
    (awaitedBy (fallbackWalk g t fs) t =
      if fs.isEmpty then awaitedBy g t
      else g.kinds.length :: awaitedBy g t) := by
  induction fs generalizing g t with
  | nil =>
    refine ⟨by simp [fallbackWalk], hb, ?_, by simp [fallbackWalk]⟩
    intro x hx
    simp only [fallbackWalk, List.length_nil]
    split
    · rfl
    · rename_i hge
      simp only [show ¬ (x - g.kinds.length + 1 < 0) by omega, if_false]
      exact awaitedBy_fresh g hb x (by omega)
  | cons f rest ih =>
    have hnm : (t, g.kinds.length) ∉ (newNode g (NodeKind.frameN f)).1.edges := by
      rw [newNode_edges]
      exact not_mem_edges_of_target_big g hb t g.kinds.length (le_refl _)
    have hg1b : EdgesBounded
        (addEdge (newNode g (NodeKind.frameN f)).1 t g.kinds.length) := by
      apply edgesBounded_addEdge _ _ _ (edgesBounded_newNode g _ hb)
      · rw [newNode_kinds]
        simp
        omega
      · rw [newNode_kinds]
        simp
    have hg1k : (addEdge (newNode g (NodeKind.frameN f)).1 t g.kinds.length).kinds =
        g.kinds ++ [NodeKind.frameN f] := by
      rw [addEdge_kinds, newNode_kinds]
    have hg1len :
        (addEdge (newNode g (NodeKind.frameN f)).1 t g.kinds.length).kinds.length
        = g.kinds.length + 1 := by
      rw [hg1k]
      simp
    have hLlt : g.kinds.length <
        (addEdge (newNode g (NodeKind.frameN f)).1 t g.kinds.length).kinds.length := by
      omega
    obtain ⟨ihk, ihb, ihx, iht⟩ :=
      ih (addEdge (newNode g (NodeKind.frameN f)).1 t g.kinds.length)
        g.kinds.length hg1b hLlt
    rw [hg1len] at ihx iht
    have hfw : fallbackWalk g t (f :: rest) =
        fallbackWalk (addEdge (newNode g (NodeKind.frameN f)).1 t g.kinds.length)
          g.kinds.length rest := rfl
    have haw_t :
        awaitedBy (addEdge (newNode g (NodeKind.frameN f)).1 t g.kinds.length) t =
        g.kinds.length :: awaitedBy g t := by
      rw [awaitedBy_addEdge_same, if_neg hnm, awaitedBy_newNode]
    have haw_other : ∀ x, x ≠ t →
        awaitedBy (addEdge (newNode g (NodeKind.frameN f)).1 t g.kinds.length) x =
        awaitedBy g x := by
      intro x hx
      rw [awaitedBy_addEdge_other _ _ _ _ hx, awaitedBy_newNode]
    have haw_L :
        awaitedBy (addEdge (newNode g (NodeKind.frameN f)).1 t g.kinds.length)
          g.kinds.length = [] := by
      rw [haw_other g.kinds.length (by omega)]
      exact awaitedBy_fresh g hb g.kinds.length (le_refl _)
    refine ⟨?_, ?_, ?_, ?_⟩
    · rw [hfw, ihk, hg1k]
      simp
    · rw [hfw]
      exact ihb
    · intro x hx
      rw [hfw]
      by_cases hxL : x = g.kinds.length
      · rw [hxL, iht, haw_L, if_neg (by omega : ¬ g.kinds.length < g.kinds.length)]
        rcases rest with _ | ⟨r2, rest2⟩
        · simp
        · simp
      · rw [ihx x hxL]
        by_cases hlt : x < g.kinds.length
        · rw [if_pos (by omega : x < g.kinds.length + 1), if_pos hlt]
          exact haw_other x hx
        · rw [if_neg hlt, if_neg (by omega : ¬ x < g.kinds.length + 1)]
          rcases Nat.lt_or_ge (x - (g.kinds.length + 1) + 1) rest.length with hc | hc
          · rw [if_pos hc, if_pos (by simp; omega)]
          · rw [if_neg (by omega), if_neg (by simp; omega)]
    · rw [hfw, ihx t (by omega), if_pos (by omega : t < g.kinds.length + 1), haw_t]
      simp

/-- C2: with no running loop or no current task, `get_async_graph` returns
the caller's `FrameNode` (node 0) as head of a linear chain: exactly one
frame node per frame of the caller's chain, each node awaited by exactly the
node of its calling frame (the outermost having no awaiter), the node count
equalling the call depth, no error or awaitable node anywhere, and the
awaitable environment never consulted. -/
theorem C2_fallback_linear_chain (env : Env) (f0 : Nat) (frest : List Nat) :
    ∃ g : GState,
      get_async_graph env none f0 frest = GRes.ok g (some 0) ∧
      g.kinds = (f0 :: frest).map NodeKind.frameN ∧
      (∀ i, awaitedBy g i =
        if i + 1 < (f0 :: frest).length then [i + 1] else []) ∧
      (∀ env2 : Env, get_async_graph env2 none f0 frest =
        get_async_graph env none f0 frest) := by
  have hg0b : EdgesBounded (newNode emptyG (NodeKind.frameN f0)).1 :=
    edgesBounded_newNode emptyG _ edgesBounded_empty
  have hlen : (newNode emptyG (NodeKind.frameN f0)).1.kinds.length = 1 := rfl
  obtain ⟨hk, _, hx, ht⟩ :=
    fallbackWalk_spec frest (newNode emptyG (NodeKind.frameN f0)).1 0 hg0b
      (by rw [hlen]; omega)
  refine ⟨fallbackWalk (newNode emptyG (NodeKind.frameN f0)).1 0 frest,
    rfl, ?_, ?_, fun env2 => rfl⟩
  · rw [hk]
    rfl
  · intro i
    by_cases hi : i = 0
    · subst hi
      rw [ht]
      have h0 : awaitedBy (newNode emptyG (NodeKind.frameN f0)).1 0 = [] := rfl
      rcases frest with _ | ⟨r, rest2⟩
      · simp [h0]
      · simp [hlen, h0]
    · rw [hx i hi, hlen]
      rw [if_neg (by omega : ¬ i < 1)]
      by_cases hc : i - 1 + 1 < frest.length
      · rw [if_pos hc, if_pos (by simp; omega)]
      · rw [if_neg hc, if_neg (by simp; omega)]

/-- C6: in cooperative mode, once the worklist drain has finished,
`get_async_graph` hits the `assert len(terminal_async_nodes) > 0` and aborts
exactly when the drain recorded no terminal node; whenever it returns a
graph normally, at least one terminal node was recorded. -/
theorem C6_assert_on_empty_terminal (env : Env) (cur f0 : Nat)
    (frest : List Nat) (st : DrainSt)
    (hdrain : drainLoop env (coopFuel env) (coopInit env cur).1 = some st) :
    (st.terminal = [] →
      get_async_graph env (some cur) f0 frest = GRes.assertFail) ∧
    (∀ g h2, get_async_graph env (some cur) f0 frest = GRes.ok g h2 →
      st.terminal ≠ []) := by
  constructor
  · intro hT
    simp only [get_async_graph, hdrain]
    rw [hT]
    simp
  · intro g h2 hok hT
    simp only [get_async_graph, hdrain] at hok
    rw [hT] at hok
    simp at hok

theorem C6_assert_on_empty_terminal_witness :
    get_async_graph Ecyc (some 0) 20 [] = GRes.assertFail :=
  (C6_assert_on_empty_terminal Ecyc 0 20 [] ⟨⟨[NodeKind.awaitableN 0], [(0, 0)]⟩, [], [], [(0, 0)]⟩
    (by decide)).1 (by decide)

/-- C1 exhibit: on `E1`, awaitable 3 expands to tail node 3 (the awaitable
vertex) and head node 4 (a frame node); the code records the tail node 3 in
`awaitable_to_head_node` (line 167 stores `child_node`, not
`child_head_node`), so the second waiter (node 1) gets its convergence edge
to the tail node 3 — bypassing the frame chain — while the first waiter
(node 2) points at the head node 4, contradicting the claim that the map
records the head node and that later edges go to it. -/
theorem C1_map_records_tail_not_head :
    drainLoop E1 (coopFuel E1) (coopInit E1 0).1 = some ST1 ∧
    kindOf ST1.g 3 = NodeKind.awaitableN 3 ∧
    kindOf ST1.g 4 = NodeKind.frameN 10 ∧
    lookupA ST1.a2h 3 = some 3 ∧
    awaitedBy ST1.g 1 = [3] ∧
    awaitedBy ST1.g 2 = [4] := by
  exact ⟨by decide, by decide, by decide, by decide, by decide, by decide⟩

/-- C8 exhibit: on a label containing both a quote and a newline, the
newline is escaped to backslash-n but the quote survives unescaped, so the
emitted `label="…"` attribute contains a bare quote and the vertex line is
not well formed. -/
theorem C8_quote_not_escaped :
    dotEscape ['a', '"', 'b', '\n', 'c'] = ['a', '"', 'b', '\\', 'n', 'c'] ∧
    '"' ∈ dotEscape ['a', '"', 'b', '\n', 'c'] ∧
    dotEscape ['a', '"', 'b', '\n', 'c'] ≠
      ['a', '\\', '"', 'b', '\\', 'n', 'c'] := by
  exact ⟨by decide, by decide, by decide⟩

/-- Structural facts about `frameChain`: it only appends frame nodes, keeps
the graph bounded, returns the last allocated node (or the start node), and
never touches the `awaited_by` set of a pre-existing node. -/
theorem frameChain_spec (fs : List Nat) (g : GState) (t : Nat)
    (hb : EdgesBounded g) (ht : t < g.kinds.length) :
    (frameChain (g, t) fs).1.kinds = g.kinds ++ fs.map NodeKind.frameN ∧
    EdgesBounded (frameChain (g, t) fs).1 ∧
    (frameChain (g, t) fs).2 =
      (if fs.isEmpty then t else g.kinds.length + fs.length - 1) ∧
    (frameChain (g, t) fs).2 < (frameChain (g, t) fs).1.kinds.length ∧
    (∀ x, x < g.kinds.length →
      awaitedBy (frameChain (g, t) fs).1 x = awaitedBy g x) := by
  induction fs generalizing g t with
  | nil =>
    exact ⟨by simp [frameChain], hb, by simp [frameChain], by simp [frameChain]; omega,
      fun x _ => rfl⟩
  | cons f fs2 ih =>
    have hg1b : EdgesBounded
        (addEdge (newNode g (NodeKind.frameN f)).1 g.kinds.length t) := by
      apply edgesBounded_addEdge _ _ _ (edgesBounded_newNode g _ hb)
      · rw [newNode_kinds]
        simp
      · rw [newNode_kinds]
        simp
        omega
    have hg1k : (addEdge (newNode g (NodeKind.frameN f)).1 g.kinds.length t).kinds =
        g.kinds ++ [NodeKind.frameN f] := by
      rw [addEdge_kinds, newNode_kinds]
    have hg1len :
        (addEdge (newNode g (NodeKind.frameN f)).1 g.kinds.length t).kinds.length =
        g.kinds.length + 1 := by
      rw [hg1k]; simp
    obtain ⟨ihk, ihb, ihid, ihlt, ihst⟩ :=
      ih (addEdge (newNode g (NodeKind.frameN f)).1 g.kinds.length t)
        g.kinds.length hg1b (by omega)
    rw [hg1len] at ihid
    have hfw : frameChain (g, t) (f :: fs2) =
        frameChain (addEdge (newNode g (NodeKind.frameN f)).1 g.kinds.length t,
          g.kinds.length) fs2 := rfl
    refine ⟨?_, by rw [hfw]; exact ihb, ?_, by rw [hfw]; exact ihlt, ?_⟩
    · rw [hfw, ihk, hg1k]
      simp
    · rw [hfw, ihid]
      rcases fs2 with _ | ⟨f2, fs3⟩
      · simp
      · simp
        omega
    · intro x hx
      rw [hfw, ihst x (by omega), awaitedBy_addEdge_other _ _ _ _ (by omega),
        awaitedBy_newNode]

/-- Structural facts about `makeAsyncGraphNodes`. -/
theorem makeANodes_spec (env : Env) (a : Nat) (g : GState)
    (hb : EdgesBounded g) :
    (makeAsyncGraphNodes env a g).1.kinds =
      g.kinds ++ NodeKind.awaitableN a :: (env.localFrames a).map NodeKind.frameN ∧
    EdgesBounded (makeAsyncGraphNodes env a g).1 ∧
    (makeAsyncGraphNodes env a g).2.1 = g.kinds.length ∧
    (makeAsyncGraphNodes env a g).2.2 =
      (if (env.localFrames a).isEmpty then g.kinds.length
       else g.kinds.length + (env.localFrames a).length) ∧
    (makeAsyncGraphNodes env a g).2.1 < (makeAsyncGraphNodes env a g).1.kinds.length ∧
    (makeAsyncGraphNodes env a g).2.2 < (makeAsyncGraphNodes env a g).1.kinds.length ∧
    (∀ x, x < g.kinds.length →
      awaitedBy (makeAsyncGraphNodes env a g).1 x = awaitedBy g x) := by
  have hnk : (newNode g (NodeKind.awaitableN a)).1.kinds =
      g.kinds ++ [NodeKind.awaitableN a] := newNode_kinds g _
  have hnb : EdgesBounded (newNode g (NodeKind.awaitableN a)).1 :=
    edgesBounded_newNode g _ hb
  have hlen : (newNode g (NodeKind.awaitableN a)).1.kinds.length =
      g.kinds.length + 1 := by rw [hnk]; simp
  obtain ⟨fk, fb, fid, flt, fst⟩ :=
    frameChain_spec (env.localFrames a) (newNode g (NodeKind.awaitableN a)).1
      g.kinds.length (by exact hnb) (by omega)
  rw [hlen] at fid
  have hfl : (frameChain ((newNode g (NodeKind.awaitableN a)).1, g.kinds.length)
      (env.localFrames a)).1.kinds.length =
      g.kinds.length + 1 + (env.localFrames a).length := by
    rw [fk]
    simp [List.length_append, hlen]
  refine ⟨?_, fb, rfl, ?_, ?_, flt, ?_⟩
  · show (frameChain ((newNode g (NodeKind.awaitableN a)).1, g.kinds.length)
        (env.localFrames a)).1.kinds = _
    rw [fk, hnk]
    simp
  · show (frameChain ((newNode g (NodeKind.awaitableN a)).1, g.kinds.length)
        (env.localFrames a)).2 = _
    rw [fid]
    rcases env.localFrames a with _ | ⟨f2, fs2⟩
    · simp
    · simp
      omega
  · show g.kinds.length <
      (frameChain ((newNode g (NodeKind.awaitableN a)).1, g.kinds.length)
        (env.localFrames a)).1.kinds.length
    omega
  · intro x hx
    show awaitedBy (frameChain ((newNode g (NodeKind.awaitableN a)).1,
      g.kinds.length) (env.localFrames a)).1 x = awaitedBy g x
    rw [fst x (by rw [hlen]; omega), awaitedBy_newNode]

/-- The kind of the head node returned by `makeAsyncGraphNodes` when the
awaitable exposes a nonempty local frame chain: the innermost frame. -/
theorem makeANodes_head_kind (env : Env) (a : Nat) (g : GState)
    (hb : EdgesBounded g) (hne : env.localFrames a ≠ []) :
    kindOf (makeAsyncGraphNodes env a g).1 (makeAsyncGraphNodes env a g).2.2 =
      NodeKind.frameN ((env.localFrames a).getLast hne) := by
  obtain ⟨hk, _, _, hh, _, _, _⟩ := makeANodes_spec env a g hb
  rw [hh, if_neg (by simp [hne])]
  rw [kindOf, hk]
  rw [List.getD_eq_getElem?_getD, List.getElem?_append_right (by simp)]
  have h1 : g.kinds.length + (env.localFrames a).length - g.kinds.length =
      (env.localFrames a).length := by omega
  rw [h1]
  have h2 : (NodeKind.awaitableN a :: (env.localFrames a).map NodeKind.frameN)[
      (env.localFrames a).length]? =
      ((env.localFrames a).map NodeKind.frameN)[(env.localFrames a).length - 1]? := by
    rcases hx : env.localFrames a with _ | ⟨f2, fs2⟩
    · simp_all
    · simp
  rw [h2]
  rw [List.getElem?_map]
  rw [List.getLast_eq_getElem]
  have hlt : (env.localFrames a).length - 1 < (env.localFrames a).length := by
    have := List.length_pos.mpr hne
    omega
  rw [List.getElem?_eq_getElem hlt]
  rfl

theorem lookupA_some_mem (l : List (Nat × Nat)) (a h : Nat)
    (hl : lookupA l a = some h) : (a, h) ∈ l := by
  induction l with
  | nil => simp [lookupA] at hl
  | cons p r ih =>
    unfold lookupA at hl
    split at hl
    · rename_i heq
      injection hl with hh
      have hp : p = (a, h) := Prod.ext heq hh
      rw [List.mem_cons]
      exact Or.inl hp.symm
    · exact List.mem_cons_of_mem p (ih hl)

theorem insertN_mem (n : Nat) (l : List Nat) (x : Nat) :
    x ∈ insertN n l → x = n ∨ x ∈ l := by
  unfold insertN
  split
  · intro hx
    exact Or.inr hx
  · intro hx
    rcases List.mem_cons.mp hx with rfl | hx
    · exact Or.inl rfl
    · exact Or.inr hx

theorem drainChildren_inv (env : Env) (node : Nat) (as : List Nat)
    (st : DrainSt) (hinv : DInv st) (hnode : node < st.g.kinds.length) :
    DInv (drainChildren env node as st) ∧
    (∃ ext, (drainChildren env node as st).g.kinds = st.g.kinds ++ ext ∧
      (∀ s, NodeKind.errorN s ∉ ext)) ∧
    (drainChildren env node as st).terminal = st.terminal := by
  induction as generalizing st with
  | nil => exact ⟨hinv, ⟨[], by simp [drainChildren], by simp⟩, rfl⟩
  | cons a rest ih =>
    obtain ⟨hbd, hq, hmap, hterm⟩ := hinv
    unfold drainChildren
    split
    · rename_i h hla
      have hh : h < st.g.kinds.length := hmap (a, h) (lookupA_some_mem _ _ _ hla)
      have hinv2 : DInv { st with g := addEdge st.g node h } := by
        refine ⟨edgesBounded_addEdge _ _ _ hbd hnode hh, ?_, ?_, ?_⟩ <;>
          simp only [addEdge_kinds] <;> assumption
      have hnode2 : node < ({ st with g := addEdge st.g node h } : DrainSt).g.kinds.length := by
        simp only [addEdge_kinds]
        exact hnode
      obtain ⟨i1, ⟨ext, hke, hne⟩, i3⟩ := ih _ hinv2 hnode2
      refine ⟨i1, ⟨ext, ?_, hne⟩, i3⟩
      · rw [hke]
        simp only [addEdge_kinds]
    · rename_i hla
      obtain ⟨mk, mb, mt, mh, mtl, mhl, _⟩ := makeANodes_spec env a st.g hbd
      have hlen : (makeAsyncGraphNodes env a st.g).1.kinds.length =
          st.g.kinds.length + 1 + (env.localFrames a).length := by
        rw [mk]
        simp
        omega
      have hinv2 : DInv
          { g := addEdge (makeAsyncGraphNodes env a st.g).1 node
              (makeAsyncGraphNodes env a st.g).2.2
            nodeQ := (makeAsyncGraphNodes env a st.g).2.1 :: st.nodeQ
            terminal := st.terminal
            a2h := (a, (makeAsyncGraphNodes env a st.g).2.1) :: st.a2h } := by
        refine ⟨?_, ?_, ?_, ?_⟩
        · exact edgesBounded_addEdge _ _ _ mb (by omega) mhl
        · intro n hn
          simp only [addEdge_kinds]
          rcases List.mem_cons.mp hn with rfl | hn
          · exact mtl
          · have := hq n hn
            omega
        · intro p hp
          simp only [addEdge_kinds]
          rcases List.mem_cons.mp hp with rfl | hp
          · exact mtl
          · have := hmap p hp
            omega
        · intro n hn
          simp only [addEdge_kinds]
          have := hterm n hn
          omega
      have hnode2 : node < (addEdge (makeAsyncGraphNodes env a st.g).1 node
          (makeAsyncGraphNodes env a st.g).2.2).kinds.length := by
        simp only [addEdge_kinds]
        omega
      obtain ⟨i1, ⟨ext, hke, hne⟩, i3⟩ := ih _ hinv2 hnode2
      refine ⟨i1, ⟨NodeKind.awaitableN a ::
        (env.localFrames a).map NodeKind.frameN ++ ext, ?_, ?_⟩, i3⟩
      · rw [hke]
        simp only [addEdge_kinds]
        rw [mk]
        simp
      · intro s hs
        rcases List.mem_cons.mp hs with hs | hs
        · exact NodeKind.noConfusion hs
        · rcases List.mem_append.mp hs with hs | hs
          · obtain ⟨f, _, hf⟩ := List.mem_map.mp hs
            exact NodeKind.noConfusion hf
          · exact hne s hs

theorem drainStep_inv (env : Env) (node : Nat) (st : DrainSt)
    (hinv : DInv st) (hnode : node < st.g.kinds.length) :
    DInv (drainStep env node st) ∧
    ∃ ext, (drainStep env node st).g.kinds = st.g.kinds ++ ext ∧
      (∀ s, NodeKind.errorN s ∉ ext) := by
  obtain ⟨hbd, hq, hmap, hterm⟩ := hinv
  have hinv2 : DInv { st with terminal :=
      if (nodeAwaiters env st.g node).isEmpty then insertN node st.terminal
      else st.terminal } := by
    refine ⟨hbd, hq, hmap, ?_⟩
    intro n hn
    split at hn
    · rcases insertN_mem node st.terminal n hn with rfl | hn
      · exact hnode
      · exact hterm n hn
    · exact hterm n hn
  obtain ⟨i1, i2, _⟩ := drainChildren_inv env node (nodeAwaiters env st.g node)
    _ hinv2 hnode
  exact ⟨i1, i2⟩

theorem drainLoop_inv (env : Env) (fuel : Nat) (st st2 : DrainSt)
    (hrun : drainLoop env fuel st = some st2) (hinv : DInv st) :
    DInv st2 ∧ ∃ ext, st2.g.kinds = st.g.kinds ++ ext ∧
      (∀ s, NodeKind.errorN s ∉ ext) := by
  induction fuel generalizing st with
  | zero =>
    unfold drainLoop at hrun
    rcases hst : st.nodeQ with _ | ⟨n, q2⟩ <;> rw [hst] at hrun
    · injection hrun with h2
      subst h2
      exact ⟨hinv, ⟨[], by simp, by simp⟩⟩
    · exact Option.noConfusion hrun
  | succ fuel ih =>
    unfold drainLoop at hrun
    rcases hst : st.nodeQ with _ | ⟨node, q2⟩ <;> rw [hst] at hrun
    · injection hrun with h2
      subst h2
      exact ⟨hinv, ⟨[], by simp, by simp⟩⟩
    · obtain ⟨hbd, hq, hmap, hterm⟩ := hinv
      have hnode : node < st.g.kinds.length := hq node (by rw [hst]; simp)
      have hinv2 : DInv { st with nodeQ := q2 } := by
        refine ⟨hbd, ?_, hmap, hterm⟩
        intro n hn
        exact hq n (by rw [hst]; simp [hn])
      obtain ⟨s1, ⟨ext1, hk1, hn1⟩⟩ :=
        drainStep_inv env node { st with nodeQ := q2 } hinv2 hnode
      obtain ⟨i1, ⟨ext2, hk2, hn2⟩⟩ := ih _ hrun s1
      refine ⟨i1, ⟨ext1 ++ ext2, ?_, ?_⟩⟩
      · rw [hk2, hk1]
        simp
      · intro s hs
        simp at hs
        rcases hs with hs | hs
        · exact hn1 s hs
        · exact hn2 s hs

theorem tg_found (exitF : Nat) (g : GState) (hOpt : Option Nat) (t f : Nat)
    (rest : List Nat) (heq : f = exitF) :
    topGraftLoop exitF g hOpt t (f :: rest) = ⟨g, hOpt, t, f :: rest⟩ := by
  conv_lhs => rw [topGraftLoop]
  rw [if_pos heq]

theorem tg_step_none_cont (exitF : Nat) (g : GState) (t f f2 : Nat)
    (rest2 : List Nat) (hne : ¬ f = exitF) :
    topGraftLoop exitF g none t (f :: f2 :: rest2) =
      topGraftLoop exitF (newNode g (NodeKind.frameN f)).1
        (some (newNode g (NodeKind.frameN f)).2)
        (newNode g (NodeKind.frameN f)).2 (f2 :: rest2) := by
  conv_lhs => rw [topGraftLoop]
  rw [if_neg hne]

theorem tg_step_some_cont (exitF : Nat) (g : GState) (h t f f2 : Nat)
    (rest2 : List Nat) (hne : ¬ f = exitF) :
    topGraftLoop exitF g (some h) t (f :: f2 :: rest2) =
      topGraftLoop exitF
        (addEdge (newNode g (NodeKind.frameN f)).1 t
          (newNode g (NodeKind.frameN f)).2)
        (some h) (newNode g (NodeKind.frameN f)).2 (f2 :: rest2) := by
  conv_lhs => rw [topGraftLoop]
  rw [if_neg hne]

theorem tg_step_none_err (exitF : Nat) (g : GState) (t f : Nat)
    (hne : ¬ f = exitF) :
    topGraftLoop exitF g none t [f] =
      ⟨addEdge (newNode (newNode g (NodeKind.frameN f)).1
          (NodeKind.errorN exitText)).1
        (newNode g (NodeKind.frameN f)).2
        (newNode (newNode g (NodeKind.frameN f)).1 (NodeKind.errorN exitText)).2,
       some (newNode g (NodeKind.frameN f)).2,
       (newNode (newNode g (NodeKind.frameN f)).1 (NodeKind.errorN exitText)).2,
       []⟩ := by
  conv_lhs => rw [topGraftLoop]
  rw [if_neg hne]

theorem tg_step_some_err (exitF : Nat) (g : GState) (h t f : Nat)
    (hne : ¬ f = exitF) :
    topGraftLoop exitF g (some h) t [f] =
      ⟨addEdge (newNode (addEdge (newNode g (NodeKind.frameN f)).1 t
            (newNode g (NodeKind.frameN f)).2)
          (NodeKind.errorN exitText)).1
        (newNode g (NodeKind.frameN f)).2
        (newNode (addEdge (newNode g (NodeKind.frameN f)).1 t
            (newNode g (NodeKind.frameN f)).2)
          (NodeKind.errorN exitText)).2,
       some h,
       (newNode (addEdge (newNode g (NodeKind.frameN f)).1 t
            (newNode g (NodeKind.frameN f)).2)
          (NodeKind.errorN exitText)).2,
       []⟩ := by
  conv_lhs => rw [topGraftLoop]
  rw [if_neg hne]

/-- Full characterization of the top-graft loop when the exit frame never
occurs in the (nonempty) remaining chain and a head node has already been
chosen: every frame is wrapped, the wrapped nodes chain linearly into the
exit-frame `ErrorNode`, which ends with an empty `awaited_by`. -/
theorem topGraftLoop_some_exhaust (chain : List Nat) (exitF : Nat)
    (g : GState) (h t : Nat) (hb : EdgesBounded g) (ht : t < g.kinds.length)
    (hne : chain ≠ []) (hnot : exitF ∉ chain) :
    (topGraftLoop exitF g (some h) t chain).g.kinds =
      g.kinds ++ chain.map NodeKind.frameN ++ [NodeKind.errorN exitText] ∧
    EdgesBounded (topGraftLoop exitF g (some h) t chain).g ∧
    (topGraftLoop exitF g (some h) t chain).headOpt = some h ∧
    (topGraftLoop exitF g (some h) t chain).tailN =
      g.kinds.length + chain.length ∧
    (topGraftLoop exitF g (some h) t chain).chain = [] ∧
    (∀ x, x < g.kinds.length → x ≠ t →
      awaitedBy (topGraftLoop exitF g (some h) t chain).g x = awaitedBy g x) ∧
    awaitedBy (topGraftLoop exitF g (some h) t chain).g t =
      g.kinds.length :: awaitedBy g t ∧
    (∀ j, j < chain.length →
      awaitedBy (topGraftLoop exitF g (some h) t chain).g (g.kinds.length + j) =
        [g.kinds.length + j + 1]) ∧
    awaitedBy (topGraftLoop exitF g (some h) t chain).g
      (g.kinds.length + chain.length) = [] := by
  induction chain generalizing g t with
  | nil => exact absurd rfl hne
  | cons f rest ih =>
    rw [List.mem_cons, not_or] at hnot
    obtain ⟨hf1, hf2⟩ := hnot
    have hfne : ¬ f = exitF := fun hEq => hf1 hEq.symm
    have hnmtL : (t, g.kinds.length) ∉ (newNode g (NodeKind.frameN f)).1.edges := by
      rw [newNode_edges]
      exact not_mem_edges_of_target_big g hb t _ (le_refl _)
    have hg1b : EdgesBounded (addEdge (newNode g (NodeKind.frameN f)).1 t
        g.kinds.length) := by
      apply edgesBounded_addEdge _ _ _ (edgesBounded_newNode g _ hb)
      · rw [newNode_kinds]; simp; omega
      · rw [newNode_kinds]; simp
    have hg1k : (addEdge (newNode g (NodeKind.frameN f)).1 t g.kinds.length).kinds
        = g.kinds ++ [NodeKind.frameN f] := by
      rw [addEdge_kinds, newNode_kinds]
    have hg1len : (addEdge (newNode g (NodeKind.frameN f)).1 t
        g.kinds.length).kinds.length = g.kinds.length + 1 := by
      rw [hg1k]; simp
    have haw1_t : awaitedBy (addEdge (newNode g (NodeKind.frameN f)).1 t
        g.kinds.length) t = g.kinds.length :: awaitedBy g t := by
      rw [awaitedBy_addEdge_same, if_neg hnmtL, awaitedBy_newNode]
    have haw1_other : ∀ x, x ≠ t →
        awaitedBy (addEdge (newNode g (NodeKind.frameN f)).1 t g.kinds.length) x
          = awaitedBy g x := by
      intro x hx
      rw [awaitedBy_addEdge_other _ _ _ _ hx, awaitedBy_newNode]
    have haw1_L : awaitedBy (addEdge (newNode g (NodeKind.frameN f)).1 t
        g.kinds.length) g.kinds.length = [] := by
      rw [haw1_other _ (by omega)]
      exact awaitedBy_fresh g hb _ (le_refl _)
    rcases rest with _ | ⟨f2, rest2⟩
    · -- last frame: the error node is created
      rw [tg_step_some_err exitF g h t f hfne]
      simp only [newNode_id, hg1len]
      have heb : EdgesBounded (newNode (addEdge (newNode g (NodeKind.frameN f)).1
          t g.kinds.length) (NodeKind.errorN exitText)).1 := by
        exact edgesBounded_newNode _ _ (by exact hg1b)
      have hekl : (newNode (addEdge (newNode g (NodeKind.frameN f)).1 t
          g.kinds.length) (NodeKind.errorN exitText)).1.kinds.length =
          g.kinds.length + 2 := by
        rw [newNode_kinds]
        simp
        omega
      have hnm2 : (g.kinds.length, g.kinds.length + 1) ∉ (newNode (addEdge
          (newNode g (NodeKind.frameN f)).1 t g.kinds.length)
          (NodeKind.errorN exitText)).1.edges := by
        rw [newNode_edges]
        apply not_mem_edges_of_target_big _ (by exact hg1b)
        rw [hg1len]
      refine ⟨?_, ?_, ?_, ?_, ?_, ?_, ?_, ?_, ?_⟩
      · rw [addEdge_kinds, newNode_kinds, hg1k]
        simp
      · apply edgesBounded_addEdge _ _ _ heb
        · rw [hekl]
          omega
        · rw [hekl]
          omega
      · trivial
      · simp
      · trivial
      · intro x hx hxt
        rw [awaitedBy_addEdge_other _ _ _ _ (by omega), awaitedBy_newNode,
          haw1_other x hxt]
      · rw [awaitedBy_addEdge_other _ _ _ _ (by omega), awaitedBy_newNode,
          haw1_t]
      · intro j hj
        simp at hj
        subst hj
        simp only [Nat.add_zero]
        rw [awaitedBy_addEdge_same, if_neg hnm2, awaitedBy_newNode, haw1_L]
      · rw [show g.kinds.length + [f].length = g.kinds.length + 1 by simp]
        rw [awaitedBy_addEdge_other _ _ _ _ (by omega), awaitedBy_newNode]
        rw [haw1_other _ (by omega)]
        apply awaitedBy_fresh g hb
        omega
    · -- more frames follow: recurse
      rw [tg_step_some_cont exitF g h t f f2 rest2 hfne]
      simp only [newNode_id]
      obtain ⟨ik, ib, iho, itl, ich, ix, it, ij, ie⟩ :=
        ih (addEdge (newNode g (NodeKind.frameN f)).1 t g.kinds.length)
          g.kinds.length hg1b (by rw [hg1len]; omega) (by simp) hf2
      rw [hg1len] at itl ij ie
      rw [hg1k] at ik
      refine ⟨?_, ib, iho, ?_, ich, ?_, ?_, ?_, ?_⟩
      · rw [ik]
        simp
      · rw [itl]
        simp
        omega
      · intro x hx hxt
        rw [ix x (by rw [hg1len]; omega) (by omega), haw1_other x hxt]
      · rw [ix t (by rw [hg1len]; omega) (by omega), haw1_t]
      · intro j hj
        rcases Nat.eq_zero_or_pos j with rfl | hjpos
        · simp only [Nat.add_zero]
          rw [it, haw1_L, hg1len]
        · have hj2 : j - 1 < (f2 :: rest2).length := by
            simp only [List.length_cons] at hj ⊢
            omega
          have hthis := ij (j - 1) hj2
          rw [show g.kinds.length + 1 + (j - 1) = g.kinds.length + j by omega]
            at hthis
          exact hthis
      · have hthis := ie
        rw [show g.kinds.length + 1 + (f2 :: rest2).length =
          g.kinds.length + (f :: f2 :: rest2).length by
            simp only [List.length_cons]
            omega] at hthis
        exact hthis

/-- Exhaustion characterization of the top-graft loop as entered from
`topGraft` (no head chosen yet): the first wrapped frame becomes the head
and receives no inbound edge from the initial tail. -/
theorem topGraftLoop_none_exhaust (chain : List Nat) (exitF : Nat)
    (g : GState) (t : Nat) (hb : EdgesBounded g) (ht : t < g.kinds.length)
    (hne : chain ≠ []) (hnot : exitF ∉ chain) :
    (topGraftLoop exitF g none t chain).g.kinds =
      g.kinds ++ chain.map NodeKind.frameN ++ [NodeKind.errorN exitText] ∧
    EdgesBounded (topGraftLoop exitF g none t chain).g ∧
    (topGraftLoop exitF g none t chain).headOpt = some g.kinds.length ∧
    (topGraftLoop exitF g none t chain).tailN =
      g.kinds.length + chain.length ∧
    (topGraftLoop exitF g none t chain).chain = [] ∧
    (∀ x, x < g.kinds.length →
      awaitedBy (topGraftLoop exitF g none t chain).g x = awaitedBy g x) ∧
    (∀ j, j < chain.length →
      awaitedBy (topGraftLoop exitF g none t chain).g (g.kinds.length + j) =
        [g.kinds.length + j + 1]) ∧
    awaitedBy (topGraftLoop exitF g none t chain).g
      (g.kinds.length + chain.length) = [] := by
  rcases chain with _ | ⟨f, rest⟩
  · exact absurd rfl hne
  · rw [List.mem_cons, not_or] at hnot
    obtain ⟨hf1, hf2⟩ := hnot
    have hfne : ¬ f = exitF := fun hEq => hf1 hEq.symm
    have hr1b : EdgesBounded (newNode g (NodeKind.frameN f)).1 :=
      edgesBounded_newNode g _ hb
    have hr1k : (newNode g (NodeKind.frameN f)).1.kinds =
        g.kinds ++ [NodeKind.frameN f] := newNode_kinds g _
    have hr1len : (newNode g (NodeKind.frameN f)).1.kinds.length =
        g.kinds.length + 1 := by rw [hr1k]; simp
    have haw1 : ∀ x, awaitedBy (newNode g (NodeKind.frameN f)).1 x =
        awaitedBy g x := fun x => awaitedBy_newNode g _ x
    have haw1_L : awaitedBy (newNode g (NodeKind.frameN f)).1
        g.kinds.length = [] := by
      rw [haw1]
      exact awaitedBy_fresh g hb _ (le_refl _)
    rcases rest with _ | ⟨f2, rest2⟩
    · rw [tg_step_none_err exitF g t f hfne]
      simp only [newNode_id, hr1len]
      have hnm2 : (g.kinds.length, g.kinds.length + 1) ∉
          (newNode (newNode g (NodeKind.frameN f)).1
            (NodeKind.errorN exitText)).1.edges := by
        rw [newNode_edges]
        apply not_mem_edges_of_target_big _ (by exact hr1b)
        rw [hr1len]
      have hekl : (newNode (newNode g (NodeKind.frameN f)).1
          (NodeKind.errorN exitText)).1.kinds.length = g.kinds.length + 2 := by
        rw [newNode_kinds, hr1k]
        simp
      refine ⟨?_, ?_, trivial, ?_, trivial, ?_, ?_, ?_⟩
      · rw [addEdge_kinds, newNode_kinds, hr1k]
        simp
      · apply edgesBounded_addEdge _ _ _ (edgesBounded_newNode _ _ hr1b)
        · rw [hekl]
          omega
        · rw [hekl]
          omega
      · simp
      · intro x hx
        rw [awaitedBy_addEdge_other _ _ _ _ (by omega), awaitedBy_newNode,
          haw1]
      · intro j hj
        simp at hj
        subst hj
        simp only [Nat.add_zero]
        rw [awaitedBy_addEdge_same, if_neg hnm2, awaitedBy_newNode, haw1_L]
      · rw [show g.kinds.length + [f].length = g.kinds.length + 1 by simp]
        rw [awaitedBy_addEdge_other _ _ _ _ (by omega), awaitedBy_newNode,
          haw1]
        apply awaitedBy_fresh g hb
        omega
    · rw [tg_step_none_cont exitF g t f f2 rest2 hfne]
      simp only [newNode_id]
      obtain ⟨ik, ib, iho, itl, ich, ix, it, ij, ie⟩ :=
        topGraftLoop_some_exhaust (f2 :: rest2) exitF
          (newNode g (NodeKind.frameN f)).1 g.kinds.length g.kinds.length
          hr1b (by rw [hr1len]; omega) (by simp) hf2
      rw [hr1len] at itl ij ie it
      rw [hr1k] at ik
      refine ⟨?_, ib, iho, ?_, ich, ?_, ?_, ?_⟩
      · rw [ik]
        simp
      · rw [itl]
        simp only [List.length_cons]
        omega
      · intro x hx
        rw [ix x (by rw [hr1len]; omega) (by omega), haw1]
      · intro j hj
        rcases Nat.eq_zero_or_pos j with rfl | hjpos
        · simp only [Nat.add_zero]
          rw [it, haw1_L]
        · have hj2 : j - 1 < (f2 :: rest2).length := by
            simp only [List.length_cons] at hj ⊢
            omega
          have hthis := ij (j - 1) hj2
          rw [show g.kinds.length + 1 + (j - 1) = g.kinds.length + j by omega]
            at hthis
          exact hthis
      · have hthis := ie
        rw [show g.kinds.length + 1 + (f2 :: rest2).length =
          g.kinds.length + (f :: f2 :: rest2).length by
            simp only [List.length_cons]
            omega] at hthis
        exact hthis

/-- Coarse facts about the top-graft loop on an arbitrary chain: the arena
only grows by frame nodes and exit-frame error nodes, stays bounded, and the
resulting tail is a valid node. -/
theorem topGraftLoop_basic (chain : List Nat) (exitF : Nat) (g : GState)
    (hOpt : Option Nat) (t : Nat) (hb : EdgesBounded g)
    (ht : t < g.kinds.length) :
    ∃ ext, (topGraftLoop exitF g hOpt t chain).g.kinds = g.kinds ++ ext ∧
      (∀ s, NodeKind.errorN s ∈ ext → s = exitText) ∧
      EdgesBounded (topGraftLoop exitF g hOpt t chain).g ∧
      (topGraftLoop exitF g hOpt t chain).tailN <
        (topGraftLoop exitF g hOpt t chain).g.kinds.length := by
  induction chain generalizing g hOpt t with
  | nil =>
    refine ⟨[], by simp [topGraftLoop], by simp, ?_, ?_⟩ <;>
      simp only [topGraftLoop]
    · exact hb
    · exact ht
  | cons f rest ih =>
    by_cases hfe : f = exitF
    · rw [tg_found exitF g hOpt t f rest hfe]
      exact ⟨[], by simp, by simp, hb, ht⟩
    · have hr1b : EdgesBounded (newNode g (NodeKind.frameN f)).1 :=
        edgesBounded_newNode g _ hb
      have hr1k : (newNode g (NodeKind.frameN f)).1.kinds =
          g.kinds ++ [NodeKind.frameN f] := newNode_kinds g _
      have hr1len : (newNode g (NodeKind.frameN f)).1.kinds.length =
          g.kinds.length + 1 := by rw [hr1k]; simp
      have hg1b : EdgesBounded (addEdge (newNode g (NodeKind.frameN f)).1 t
          g.kinds.length) := by
        apply edgesBounded_addEdge _ _ _ hr1b
        · rw [hr1len]; omega
        · rw [hr1len]; omega
      have hg1k : (addEdge (newNode g (NodeKind.frameN f)).1 t
          g.kinds.length).kinds = g.kinds ++ [NodeKind.frameN f] := by
        rw [addEdge_kinds, hr1k]
      have hg1len : (addEdge (newNode g (NodeKind.frameN f)).1 t
          g.kinds.length).kinds.length = g.kinds.length + 1 := by
        rw [hg1k]; simp
      rcases hOpt with _ | h <;> rcases rest with _ | ⟨f2, rest2⟩
      · rw [tg_step_none_err exitF g t f hfe]
        simp only [newNode_id, hr1len]
        refine ⟨[NodeKind.frameN f, NodeKind.errorN exitText], ?_, ?_, ?_, ?_⟩
        · rw [addEdge_kinds, newNode_kinds, hr1k]
          simp
        · intro s hs
          simp at hs
          exact hs
        · apply edgesBounded_addEdge _ _ _ (edgesBounded_newNode _ _ hr1b)
          · rw [newNode_kinds, hr1k]
            simp
          · rw [newNode_kinds, hr1k]
            simp
        · rw [addEdge_kinds, newNode_kinds, hr1k]
          simp
      · rw [tg_step_none_cont exitF g t f f2 rest2 hfe]
        simp only [newNode_id]
        obtain ⟨ext, iek, ien, ieb, iet⟩ :=
          ih (newNode g (NodeKind.frameN f)).1 (some g.kinds.length)
            g.kinds.length hr1b (by rw [hr1len]; omega)
        refine ⟨NodeKind.frameN f :: ext, ?_, ?_, ieb, iet⟩
        · rw [iek, hr1k]
          simp
        · intro s hs
          rcases List.mem_cons.mp hs with hs | hs
          · exact absurd hs (by simp)
          · exact ien s hs
      · rw [tg_step_some_err exitF g h t f hfe]
        simp only [newNode_id, hg1len]
        refine ⟨[NodeKind.frameN f, NodeKind.errorN exitText], ?_, ?_, ?_, ?_⟩
        · rw [addEdge_kinds, newNode_kinds, hg1k]
          simp
        · intro s hs
          simp at hs
          exact hs
        · apply edgesBounded_addEdge _ _ _ (edgesBounded_newNode _ _ hg1b)
          · rw [newNode_kinds, hg1k]
            simp
          · rw [newNode_kinds, hg1k]
            simp
        · rw [addEdge_kinds, newNode_kinds, hg1k]
          simp
      · rw [tg_step_some_cont exitF g h t f f2 rest2 hfe]
        simp only [newNode_id]
        obtain ⟨ext, iek, ien, ieb, iet⟩ :=
          ih (addEdge (newNode g (NodeKind.frameN f)).1 t g.kinds.length)
            (some h) g.kinds.length hg1b (by rw [hg1len]; omega)
        refine ⟨NodeKind.frameN f :: ext, ?_, ?_, ieb, iet⟩
        · rw [iek, hg1k]
          simp
        · intro s hs
          rcases List.mem_cons.mp hs with hs | hs
          · exact absurd hs (by simp)
          · exact ien s hs

/-- Coarse facts about `topGraft`. -/
theorem topGraft_basic (g : GState) (taskNode taskHead : Nat)
    (chain : List Nat) (hb : EdgesBounded g)
    (htn : taskNode < g.kinds.length) (hth : taskHead < g.kinds.length) :
    ∃ ext, (topGraft g taskNode taskHead chain).g.kinds = g.kinds ++ ext ∧
      (∀ s, NodeKind.errorN s ∈ ext → s = exitText) ∧
      EdgesBounded (topGraft g taskNode taskHead chain).g ∧
      (topGraft g taskNode taskHead chain).tailN <
        (topGraft g taskNode taskHead chain).g.kinds.length := by
  rcases hk : kindOf g taskHead with f | a | s
  · have hg : topGraft g taskNode taskHead chain =
        ⟨addEdge (topGraftLoop f g none taskHead chain).g
            (topGraftLoop f g none taskHead chain).tailN taskHead,
          (topGraftLoop f g none taskHead chain).headOpt,
          (topGraftLoop f g none taskHead chain).tailN,
          (topGraftLoop f g none taskHead chain).chain⟩ := by
      rw [topGraft, hk]
    obtain ⟨ext, iek, ien, ieb, iet⟩ :=
      topGraftLoop_basic chain f g none taskHead hb hth
    rw [hg]
    refine ⟨ext, ?_, ien, ?_, ?_⟩
    · rw [addEdge_kinds]
      exact iek
    · apply edgesBounded_addEdge _ _ _ ieb iet
      rw [iek]
      simp
      omega
    · rw [addEdge_kinds]
      exact iet
  · have hg : topGraft g taskNode taskHead chain =
        ⟨g, some taskHead, taskNode, chain⟩ := by
      rw [topGraft, hk]
    rw [hg]
    exact ⟨[], by simp, by simp, hb, htn⟩
  · have hg : topGraft g taskNode taskHead chain =
        ⟨g, some taskHead, taskNode, chain⟩ := by
      rw [topGraft, hk]
    rw [hg]
    exact ⟨[], by simp, by simp, hb, htn⟩

theorem kindOf_extends (g g2 : GState) (l : List NodeKind)
    (h : g2.kinds = g.kinds ++ l) (n : Nat) (hn : n < g.kinds.length) :
    kindOf g2 n = kindOf g n := by
  rw [kindOf, kindOf, h, List.getD_eq_getElem?_getD, List.getD_eq_getElem?_getD,
    List.getElem?_append, if_pos hn]

theorem kindOf_at_append (g : GState) (K l : List NodeKind)
    (hk : g.kinds = K ++ l) (j : Nat) (hj : j < l.length) :
    kindOf g (K.length + j) = l.getD j (NodeKind.errorN "") := by
  rw [kindOf, hk, List.getD_eq_getElem?_getD,
    List.getElem?_append_right (by omega)]
  have h2 : K.length + j - K.length = j := by omega
  rw [h2, ← List.getD_eq_getElem?_getD]

/-- `topGraft` in the exhaustion scenario: the task's head is a frame node
whose frame never occurs in the caller's chain.  Every caller frame is
wrapped, the chain ends in the exit-frame `ErrorNode`, which then receives
its edge to the task's head node (source line 194). -/
theorem topGraft_exhaust (g : GState) (taskNode taskHead exitF : Nat)
    (chain : List Nat) (hb : EdgesBounded g)
    (hth : taskHead < g.kinds.length)
    (hk : kindOf g taskHead = NodeKind.frameN exitF)
    (hne : chain ≠ []) (hnot : exitF ∉ chain) :
    (topGraft g taskNode taskHead chain).g.kinds =
      g.kinds ++ chain.map NodeKind.frameN ++ [NodeKind.errorN exitText] ∧
    EdgesBounded (topGraft g taskNode taskHead chain).g ∧
    (topGraft g taskNode taskHead chain).headOpt = some g.kinds.length ∧
    (topGraft g taskNode taskHead chain).tailN =
      g.kinds.length + chain.length ∧
    (topGraft g taskNode taskHead chain).chain = [] ∧
    (∀ x, x < g.kinds.length →
      awaitedBy (topGraft g taskNode taskHead chain).g x = awaitedBy g x) ∧
    (∀ j, j < chain.length →
      awaitedBy (topGraft g taskNode taskHead chain).g (g.kinds.length + j) =
        [g.kinds.length + j + 1]) ∧
    awaitedBy (topGraft g taskNode taskHead chain).g
      (g.kinds.length + chain.length) = [taskHead] := by
  have hg : topGraft g taskNode taskHead chain =
      ⟨addEdge (topGraftLoop exitF g none taskHead chain).g
          (topGraftLoop exitF g none taskHead chain).tailN taskHead,
        (topGraftLoop exitF g none taskHead chain).headOpt,
        (topGraftLoop exitF g none taskHead chain).tailN,
        (topGraftLoop exitF g none taskHead chain).chain⟩ := by
    rw [topGraft, hk]
  obtain ⟨ik, ib, iho, itl, ich, ix, ij, ie⟩ :=
    topGraftLoop_none_exhaust chain exitF g taskHead hb hth hne hnot
  have hlen : (topGraftLoop exitF g none taskHead chain).g.kinds.length =
      g.kinds.length + chain.length + 1 := by
    rw [ik]
    simp
    omega
  have hnm : ((topGraftLoop exitF g none taskHead chain).tailN, taskHead) ∉
      (topGraftLoop exitF g none taskHead chain).g.edges := by
    intro hmem
    have h2 : taskHead ∈ awaitedBy (topGraftLoop exitF g none taskHead chain).g
        (topGraftLoop exitF g none taskHead chain).tailN :=
      (mem_awaitedBy _ _ _).mpr hmem
    rw [itl, ie] at h2
    simp at h2
  rw [hg]
  refine ⟨?_, ?_, iho, itl, ich, ?_, ?_, ?_⟩
  · rw [addEdge_kinds]
    exact ik
  · apply edgesBounded_addEdge _ _ _ ib
    · rw [itl, hlen]
      omega
    · rw [hlen]
      omega
  · intro x hx
    rw [awaitedBy_addEdge_other _ _ _ _ (by rw [itl]; omega), ix x hx]
  · intro j hj
    rw [awaitedBy_addEdge_other _ _ _ _ (by rw [itl]; omega), ij j hj]
  · rw [show g.kinds.length + chain.length =
      (topGraftLoop exitF g none taskHead chain).tailN from itl.symm]
    rw [awaitedBy_addEdge_same, if_neg hnm, itl, ie]

theorem coopInit_facts (env : Env) (cur : Nat) :
    DInv (coopInit env cur).1 ∧
    (coopInit env cur).1.g = (makeAsyncGraphNodes env cur emptyG).1 ∧
    (coopInit env cur).2.1 < (coopInit env cur).1.g.kinds.length ∧
    (coopInit env cur).2.2 < (coopInit env cur).1.g.kinds.length ∧
    (coopInit env cur).2.2 = (makeAsyncGraphNodes env cur emptyG).2.2 := by
  obtain ⟨mk, mb, mt, mh, mtl, mhl, _⟩ :=
    makeANodes_spec env cur emptyG edgesBounded_empty
  refine ⟨⟨mb, ?_, ?_, ?_⟩, rfl, mtl, mhl, rfl⟩
  · intro n hn
    rcases List.mem_cons.mp hn with rfl | hn
    · exact mtl
    · simp at hn
  · intro p hp
    rcases List.mem_cons.mp hp with rfl | hp
    · exact mhl
    · simp at hp
  · intro n hn
    exact absurd hn (List.not_mem_nil n)

/-- Common setup for the exhaustion scenario inside `get_async_graph`:
cooperative mode, successful drain with a nonempty terminal set, a task head
exposed as a frame node whose frame is absent from the caller's chain. -/
theorem coop_exhaust_setup (env : Env) (cur f0 : Nat) (frest : List Nat)
    (st : DrainSt)
    (hlf : env.localFrames cur ≠ [])
    (hdrain : drainLoop env (coopFuel env) (coopInit env cur).1 = some st)
    (hterm : st.terminal.isEmpty = false)
    (hnot : (env.localFrames cur).getLast hlf ∉ f0 :: frest) :
    get_async_graph env (some cur) f0 frest = GRes.ok
      (addEdge (newNode (topGraft st.g (coopInit env cur).2.1
          (coopInit env cur).2.2 (f0 :: frest)).g
          (NodeKind.errorN entryText)).1
        (topGraft st.g (coopInit env cur).2.1
          (coopInit env cur).2.2 (f0 :: frest)).tailN
        (newNode (topGraft st.g (coopInit env cur).2.1
          (coopInit env cur).2.2 (f0 :: frest)).g
          (NodeKind.errorN entryText)).2)
      (topGraft st.g (coopInit env cur).2.1
        (coopInit env cur).2.2 (f0 :: frest)).headOpt ∧
    (topGraft st.g (coopInit env cur).2.1 (coopInit env cur).2.2
        (f0 :: frest)).g.kinds =
      st.g.kinds ++ (f0 :: frest).map NodeKind.frameN ++
        [NodeKind.errorN exitText] ∧
    EdgesBounded (topGraft st.g (coopInit env cur).2.1 (coopInit env cur).2.2
      (f0 :: frest)).g ∧
    (topGraft st.g (coopInit env cur).2.1 (coopInit env cur).2.2
        (f0 :: frest)).tailN =
      st.g.kinds.length + (f0 :: frest).length ∧
    (∀ j, j < (f0 :: frest).length →
      awaitedBy (topGraft st.g (coopInit env cur).2.1 (coopInit env cur).2.2
        (f0 :: frest)).g (st.g.kinds.length + j) =
        [st.g.kinds.length + j + 1]) ∧
    awaitedBy (topGraft st.g (coopInit env cur).2.1 (coopInit env cur).2.2
      (f0 :: frest)).g (st.g.kinds.length + (f0 :: frest).length) =
      [(coopInit env cur).2.2] := by
  obtain ⟨hinv0, hgeq, htn0, hth0, hhead⟩ := coopInit_facts env cur
  obtain ⟨hinvst, ⟨ext, hkext, _⟩⟩ :=
    drainLoop_inv env (coopFuel env) (coopInit env cur).1 st hdrain hinv0
  obtain ⟨hbst, _, _, _⟩ := hinvst
  have hth : (coopInit env cur).2.2 < st.g.kinds.length := by
    rw [hkext]
    simp only [List.length_append]
    omega
  have hkh : kindOf st.g (coopInit env cur).2.2 =
      NodeKind.frameN ((env.localFrames cur).getLast hlf) := by
    rw [kindOf_extends (coopInit env cur).1.g st.g ext hkext _ (by omega)]
    rw [hgeq, hhead]
    exact makeANodes_head_kind env cur emptyG edgesBounded_empty hlf
  obtain ⟨tk, tb, tho, ttl, tch, tx, tj, te⟩ :=
    topGraft_exhaust st.g (coopInit env cur).2.1 (coopInit env cur).2.2
      ((env.localFrames cur).getLast hlf) (f0 :: frest) hbst hth hkh
      (by simp) hnot
  refine ⟨?_, tk, tb, ttl, tj, te⟩
  simp only [get_async_graph, hdrain, hterm]
  rw [tch]
  simp only [entrySearch, bottomGraft]
  rfl

theorem getD_map_frameN (l : List Nat) (j : Nat) (hj : j < l.length)
    (d : NodeKind) (rest : List NodeKind) :
    (l.map NodeKind.frameN ++ rest).getD j d = NodeKind.frameN (l.getD j 0) := by
  rw [List.getD_eq_getElem?_getD, List.getElem?_append,
    if_pos (by simp; omega), List.getElem?_map,
    List.getElem?_eq_getElem hj, List.getD_eq_getElem?_getD,
    List.getElem?_eq_getElem hj]
  rfl

theorem getD_last (l : List Nat) (hne : l ≠ []) :
    l.getD (l.length - 1) 0 = l.getLast hne := by
  rw [List.getLast_eq_getElem, List.getD_eq_getElem?_getD,
    List.getElem?_eq_getElem (by have := List.length_pos.mpr hne; omega)]
  rfl

/-- C5: in cooperative mode with the current task's head node a frame node,
when the caller's frame chain is exhausted without meeting the task's exit
frame, `get_async_graph` still returns a graph (no exception): every caller
frame is wrapped, and an `ErrorNode` whose text is exactly
"Could not find exit frame for current task" is placed in the `awaited_by`
set of the last wrapped frame node. -/
theorem C5_exit_frame_error (env : Env) (cur f0 : Nat) (frest : List Nat)
    (st : DrainSt)
    (hlf : env.localFrames cur ≠ [])
    (hdrain : drainLoop env (coopFuel env) (coopInit env cur).1 = some st)
    (hterm : st.terminal.isEmpty = false)
    (hnot : (env.localFrames cur).getLast hlf ∉ f0 :: frest) :
    ∃ g2 ho,
      get_async_graph env (some cur) f0 frest = GRes.ok g2 ho ∧
      kindOf g2 (st.g.kinds.length + (f0 :: frest).length) =
        NodeKind.errorN exitText ∧
      kindOf g2 (st.g.kinds.length + frest.length) =
        NodeKind.frameN ((f0 :: frest).getLast (by simp)) ∧
      (st.g.kinds.length + (f0 :: frest).length) ∈
        awaitedBy g2 (st.g.kinds.length + frest.length) := by
  obtain ⟨hok, tk, tb, ttl, tj, te⟩ :=
    coop_exhaust_setup env cur f0 frest st hlf hdrain hterm hnot
  have htrlen : (topGraft st.g (coopInit env cur).2.1 (coopInit env cur).2.2
      (f0 :: frest)).g.kinds.length =
      st.g.kinds.length + (f0 :: frest).length + 1 := by
    rw [tk]
    simp
    omega
  refine ⟨_, _, hok, ?_, ?_, ?_⟩
  · rw [kindOf_extends (topGraft st.g (coopInit env cur).2.1
        (coopInit env cur).2.2 (f0 :: frest)).g _
        [NodeKind.errorN entryText]
        (by rw [addEdge_kinds, newNode_kinds]) _ (by omega)]
    have hK : st.g.kinds.length + (f0 :: frest).length =
        (st.g.kinds ++ (f0 :: frest).map NodeKind.frameN).length + 0 := by
      simp
    rw [hK, kindOf_at_append _ (st.g.kinds ++ (f0 :: frest).map NodeKind.frameN)
      [NodeKind.errorN exitText] (by rw [tk]) 0 (by simp)]
    rfl
  · rw [kindOf_extends (topGraft st.g (coopInit env cur).2.1
        (coopInit env cur).2.2 (f0 :: frest)).g _
        [NodeKind.errorN entryText]
        (by rw [addEdge_kinds, newNode_kinds]) _ (by rw [htrlen]; simp only [List.length_cons]; omega)]
    rw [kindOf_at_append _ st.g.kinds
      ((f0 :: frest).map NodeKind.frameN ++ [NodeKind.errorN exitText])
      (by rw [tk, List.append_assoc]) frest.length
      (by simp only [List.length_append, List.length_map, List.length_cons]
          omega)]
    rw [getD_map_frameN _ _ (by simp only [List.length_cons]; omega)]
    congr 1
    rw [show frest.length = (f0 :: frest).length - 1 from (by simp)]
    exact getD_last (f0 :: frest) (by simp)
  · have hmem0 : st.g.kinds.length + (f0 :: frest).length ∈
        awaitedBy (topGraft st.g (coopInit env cur).2.1 (coopInit env cur).2.2
          (f0 :: frest)).g (st.g.kinds.length + frest.length) := by
      rw [tj frest.length (by simp)]
      simp
      omega
    rw [awaitedBy_addEdge_other _ _ _ _
        (by rw [ttl]; simp only [List.length_cons]; omega),
      awaitedBy_newNode]
    exact hmem0

/-- C10: when the exit-frame search exhausts the caller's chain, the
exit-frame `ErrorNode` is not a sink: its `awaited_by` set holds exactly the
entry-point `ErrorNode` (added by the failed bottom graft) and the current
task's head node (added by source line 194). -/
theorem C10_exit_error_not_sink (env : Env) (cur f0 : Nat) (frest : List Nat)
    (st : DrainSt)
    (hlf : env.localFrames cur ≠ [])
    (hdrain : drainLoop env (coopFuel env) (coopInit env cur).1 = some st)
    (hterm : st.terminal.isEmpty = false)
    (hnot : (env.localFrames cur).getLast hlf ∉ f0 :: frest) :
    ∃ g2 ho,
      get_async_graph env (some cur) f0 frest = GRes.ok g2 ho ∧
      kindOf g2 (st.g.kinds.length + (f0 :: frest).length) =
        NodeKind.errorN exitText ∧
      kindOf g2 (st.g.kinds.length + (f0 :: frest).length + 1) =
        NodeKind.errorN entryText ∧
      awaitedBy g2 (st.g.kinds.length + (f0 :: frest).length) =
        [st.g.kinds.length + (f0 :: frest).length + 1,
          (coopInit env cur).2.2] := by
  obtain ⟨hok, tk, tb, ttl, tj, te⟩ :=
    coop_exhaust_setup env cur f0 frest st hlf hdrain hterm hnot
  have htrlen : (topGraft st.g (coopInit env cur).2.1 (coopInit env cur).2.2
      (f0 :: frest)).g.kinds.length =
      st.g.kinds.length + (f0 :: frest).length + 1 := by
    rw [tk]
    simp
    omega
  have he2 : (newNode (topGraft st.g (coopInit env cur).2.1
      (coopInit env cur).2.2 (f0 :: frest)).g (NodeKind.errorN entryText)).2 =
      st.g.kinds.length + (f0 :: frest).length + 1 := by
    rw [newNode_id, htrlen]
  refine ⟨_, _, hok, ?_, ?_, ?_⟩
  · rw [kindOf_extends (topGraft st.g (coopInit env cur).2.1
        (coopInit env cur).2.2 (f0 :: frest)).g _
        [NodeKind.errorN entryText]
        (by rw [addEdge_kinds, newNode_kinds]) _ (by omega)]
    have hK : st.g.kinds.length + (f0 :: frest).length =
        (st.g.kinds ++ (f0 :: frest).map NodeKind.frameN).length + 0 := by
      simp
    rw [hK, kindOf_at_append _ (st.g.kinds ++ (f0 :: frest).map NodeKind.frameN)
      [NodeKind.errorN exitText] (by rw [tk]) 0 (by simp)]
    rfl
  · have hK : st.g.kinds.length + (f0 :: frest).length + 1 =
        (topGraft st.g (coopInit env cur).2.1 (coopInit env cur).2.2
          (f0 :: frest)).g.kinds.length + 0 := by
      rw [htrlen]
    rw [hK, kindOf_at_append _ _ [NodeKind.errorN entryText]
      (by rw [addEdge_kinds, newNode_kinds]) 0 (by simp)]
    rfl
  · have hnm : ((topGraft st.g (coopInit env cur).2.1 (coopInit env cur).2.2
        (f0 :: frest)).tailN,
        (newNode (topGraft st.g (coopInit env cur).2.1 (coopInit env cur).2.2
          (f0 :: frest)).g (NodeKind.errorN entryText)).2) ∉
        (newNode (topGraft st.g (coopInit env cur).2.1 (coopInit env cur).2.2
          (f0 :: frest)).g (NodeKind.errorN entryText)).1.edges := by
      rw [newNode_edges, he2]
      apply not_mem_edges_of_target_big _ tb
      rw [htrlen]
    rw [show st.g.kinds.length + (f0 :: frest).length =
      (topGraft st.g (coopInit env cur).2.1 (coopInit env cur).2.2
        (f0 :: frest)).tailN from ttl.symm]
    rw [awaitedBy_addEdge_same, if_neg hnm, awaitedBy_newNode, ttl, te, he2]

theorem insertN_nodup (n : Nat) (l : List Nat) (h : l.Nodup) :
    (insertN n l).Nodup := by
  unfold insertN
  split
  · exact h
  · exact List.Nodup.cons (by assumption) h

theorem drainChildren_terminal (env : Env) (node : Nat) (as : List Nat)
    (st : DrainSt) : (drainChildren env node as st).terminal = st.terminal := by
  induction as generalizing st with
  | nil => rfl
  | cons a rest ih =>
    unfold drainChildren
    split
    · rw [ih]
    · rw [ih]

theorem drainStep_terminal (env : Env) (node : Nat) (st : DrainSt) :
    (drainStep env node st).terminal =
      if (nodeAwaiters env st.g node).isEmpty then insertN node st.terminal
      else st.terminal := by
  unfold drainStep
  rw [drainChildren_terminal]

theorem drainLoop_terminal_nodup (env : Env) (fuel : Nat) (st st2 : DrainSt)
    (hrun : drainLoop env fuel st = some st2) (hnd : st.terminal.Nodup) :
    st2.terminal.Nodup := by
  induction fuel generalizing st with
  | zero =>
    unfold drainLoop at hrun
    rcases hst : st.nodeQ with _ | ⟨n, q2⟩ <;> rw [hst] at hrun
    · injection hrun with h2
      subst h2
      exact hnd
    · exact Option.noConfusion hrun
  | succ fuel ih =>
    unfold drainLoop at hrun
    rcases hst : st.nodeQ with _ | ⟨node, q2⟩ <;> rw [hst] at hrun
    · injection hrun with h2
      subst h2
      exact hnd
    · apply ih _ hrun
      rw [drainStep_terminal]
      split
      · exact insertN_nodup _ _ hnd
      · exact hnd

/-- The fan-in fold of the bottom graft: every terminal node gains exactly
one edge to the new node `m`; nothing else changes. -/
theorem foldl_addEdge_spec (terminal : List Nat) (g : GState) (m : Nat)
    (hnd : terminal.Nodup) (habs : ∀ x ∈ terminal, (x, m) ∉ g.edges) :
    (terminal.foldl (fun h x => addEdge h x m) g).kinds = g.kinds ∧
    (∀ t ∈ terminal,
      awaitedBy (terminal.foldl (fun h x => addEdge h x m) g) t =
        m :: awaitedBy g t) ∧
    (∀ x, x ∉ terminal →
      awaitedBy (terminal.foldl (fun h x => addEdge h x m) g) x =
        awaitedBy g x) ∧
    (∀ e ∈ (terminal.foldl (fun h x => addEdge h x m) g).edges,
      e ∈ g.edges ∨ (e.2 = m ∧ e.1 ∈ terminal)) := by
  induction terminal generalizing g with
  | nil => exact ⟨rfl, by simp, fun x _ => rfl, fun e he => Or.inl he⟩
  | cons t ts ih =>
    have hnd2 : ts.Nodup := hnd.of_cons
    have htnotts : t ∉ ts := by
      rcases List.nodup_cons.mp hnd with ⟨h1, _⟩
      exact h1
    have habs2 : ∀ x ∈ ts, (x, m) ∉ (addEdge g t m).edges := by
      intro x hx hmem
      unfold addEdge at hmem
      split at hmem
      · exact habs x (List.mem_cons_of_mem t hx) hmem
      · rcases List.mem_cons.mp hmem with heq | hmem2
        · have : x = t := by
            have := congrArg Prod.fst heq
            simpa using this
          exact htnotts (this ▸ hx)
        · exact habs x (List.mem_cons_of_mem t hx) hmem2
    have hfold : (t :: ts).foldl (fun h x => addEdge h x m) g =
        ts.foldl (fun h x => addEdge h x m) (addEdge g t m) := rfl
    obtain ⟨ik, imem, iother, iedge⟩ := ih (addEdge g t m) hnd2 habs2
    rw [hfold]
    refine ⟨by rw [ik, addEdge_kinds], ?_, ?_, ?_⟩
    · intro x hx
      rcases List.mem_cons.mp hx with rfl | hx
      · rw [iother x htnotts, awaitedBy_addEdge_same,
          if_neg (habs x (List.mem_cons_self x ts))]
      · rw [imem x hx, awaitedBy_addEdge_other _ _ _ _ (by
          intro heq
          exact htnotts (heq ▸ hx))]
    · intro x hx
      rw [List.mem_cons, not_or] at hx
      rw [iother x hx.2, awaitedBy_addEdge_other _ _ _ _ hx.1]
    · intro e he
      rcases iedge e he with he2 | he2
      · unfold addEdge at he2
        split at he2
        · exact Or.inl he2
        · rcases List.mem_cons.mp he2 with rfl | he3
          · exact Or.inr ⟨rfl, List.mem_cons_self t ts⟩
          · exact Or.inl he3
      · exact Or.inr ⟨he2.1, List.mem_cons_of_mem t he2.2⟩

/-- With a tail already chosen, the bottom-graft chaining loop coincides
with the fallback stack walk. -/
theorem bottomLoop_some_eq (fs : List Nat) (terminal : List Nat)
    (g : GState) (t : Nat) :
    bottomLoop terminal g (some t) fs = fallbackWalk g t fs := by
  induction fs generalizing g t with
  | nil => rfl
  | cons f rest ih =>
    show bottomLoop terminal
      (addEdge (newNode g (NodeKind.frameN f)).1 t
        (newNode g (NodeKind.frameN f)).2)
      (some (newNode g (NodeKind.frameN f)).2) rest = _
    rw [ih]
    rfl

/-- Full characterization of the bottom graft on a nonempty chain: the first
wrapped frame node receives a fan-in edge from every terminal node, and the
remaining frames chain linearly, ending with an empty `awaited_by`. -/
theorem bottomLoop_spec (f : Nat) (rest : List Nat) (g : GState)
    (terminal : List Nat) (hb : EdgesBounded g) (hnd : terminal.Nodup)
    (hterm : ∀ t ∈ terminal, t < g.kinds.length) :
    (bottomLoop terminal g none (f :: rest)).kinds =
      g.kinds ++ (f :: rest).map NodeKind.frameN ∧
    (∀ t ∈ terminal, awaitedBy (bottomLoop terminal g none (f :: rest)) t =
      g.kinds.length :: awaitedBy g t) ∧
    (∀ j, j + 1 < (f :: rest).length →
      awaitedBy (bottomLoop terminal g none (f :: rest))
        (g.kinds.length + j) = [g.kinds.length + j + 1]) ∧
    awaitedBy (bottomLoop terminal g none (f :: rest))
      (g.kinds.length + rest.length) = [] ∧
    (∀ x, x < g.kinds.length → x ∉ terminal →
      awaitedBy (bottomLoop terminal g none (f :: rest)) x =
        awaitedBy g x) := by
  have habs : ∀ x ∈ terminal, (x, g.kinds.length) ∉
      (newNode g (NodeKind.frameN f)).1.edges := by
    intro x _ hmem
    rw [newNode_edges] at hmem
    exact not_mem_edges_of_target_big g hb x _ (le_refl _) hmem
  obtain ⟨fk, fmem, fother, fedge⟩ :=
    foldl_addEdge_spec terminal (newNode g (NodeKind.frameN f)).1
      g.kinds.length hnd habs
  have hg1 : bottomLoop terminal g none (f :: rest) =
      bottomLoop terminal
        (terminal.foldl (fun h x => addEdge h x (newNode g
          (NodeKind.frameN f)).2) (newNode g (NodeKind.frameN f)).1)
        (some (newNode g (NodeKind.frameN f)).2) rest := rfl
  have hfoldeq : (terminal.foldl (fun h x => addEdge h x (newNode g
      (NodeKind.frameN f)).2) (newNode g (NodeKind.frameN f)).1) =
      (terminal.foldl (fun h x => addEdge h x g.kinds.length)
        (newNode g (NodeKind.frameN f)).1) := rfl
  have hg1k : (terminal.foldl (fun h x => addEdge h x g.kinds.length)
      (newNode g (NodeKind.frameN f)).1).kinds =
      g.kinds ++ [NodeKind.frameN f] := by
    rw [fk, newNode_kinds]
  have hg1len : (terminal.foldl (fun h x => addEdge h x g.kinds.length)
      (newNode g (NodeKind.frameN f)).1).kinds.length =
      g.kinds.length + 1 := by
    rw [hg1k]
    simp
  have hg1b : EdgesBounded (terminal.foldl (fun h x => addEdge h x
      g.kinds.length) (newNode g (NodeKind.frameN f)).1) := by
    intro e he
    rw [hg1k]
    simp only [List.length_append, List.length_cons, List.length_nil]
    rcases fedge e he with he2 | ⟨he2, he3⟩
    · rw [newNode_edges] at he2
      obtain ⟨h1, h2⟩ := hb e he2
      omega
    · have := hterm e.1 he3
      omega
  have hawL : awaitedBy (terminal.foldl (fun h x => addEdge h x
      g.kinds.length) (newNode g (NodeKind.frameN f)).1) g.kinds.length
      = [] := by
    rw [List.eq_nil_iff_forall_not_mem]
    intro m hm
    rw [mem_awaitedBy] at hm
    rcases fedge _ hm with he2 | ⟨_, he3⟩
    · rw [newNode_edges] at he2
      obtain ⟨h1, _⟩ := hb _ he2
      simp at h1
    · have := hterm _ he3
      simp at this
  obtain ⟨wk, wb, wx, wt⟩ :=
    fallbackWalk_spec rest
      (terminal.foldl (fun h x => addEdge h x g.kinds.length)
        (newNode g (NodeKind.frameN f)).1)
      g.kinds.length hg1b (by rw [hg1len]; omega)
  rw [hg1len] at wx
  refine ⟨?_, ?_, ?_, ?_, ?_⟩
  · rw [hg1, hfoldeq, bottomLoop_some_eq, newNode_id, wk, hg1k]
    simp
  · intro t ht
    rw [hg1, hfoldeq, bottomLoop_some_eq, newNode_id]
    have htlt : t < g.kinds.length := hterm t ht
    rw [wx t (by omega), if_pos (by omega), fmem t ht, awaitedBy_newNode]
  · intro j hj
    rw [hg1, hfoldeq, bottomLoop_some_eq, newNode_id]
    rcases Nat.eq_zero_or_pos j with rfl | hjpos
    · rcases rest with _ | ⟨r2, rest2⟩
      · simp at hj
      · rw [Nat.add_zero, wt, hawL, hg1len]
        simp
    · have hjb : ¬ (g.kinds.length + j < g.kinds.length + 1) := by omega
      rw [wx (g.kinds.length + j) (by omega), if_neg hjb]
      simp only [List.length_cons] at hj
      rw [if_pos (by omega)]
  · rw [hg1, hfoldeq, bottomLoop_some_eq, newNode_id]
    rcases rest with _ | ⟨r2, rest2⟩
    · simp only [List.length_nil, Nat.add_zero]
      rw [wt]
      simp [hawL]
    · have hjb : ¬ (g.kinds.length + (r2 :: rest2).length <
        g.kinds.length + 1) := by
        simp only [List.length_cons]
        omega
      rw [wx _ (by omega), if_neg hjb,
        if_neg (by simp only [List.length_cons]; omega)]
  · intro x hx hxt
    rw [hg1, hfoldeq, bottomLoop_some_eq, newNode_id]
    rw [wx x (by omega), if_pos (by omega), fother x hxt, awaitedBy_newNode]

theorem getD_map_frameN2 (l : List Nat) (j : Nat) (hj : j < l.length)
    (d : NodeKind) :
    (l.map NodeKind.frameN).getD j d = NodeKind.frameN (l.getD j 0) := by
  have h2 := getD_map_frameN l j hj d []
  simpa using h2

/-- C3: in cooperative mode, when the entry-frame search succeeds with
frames remaining beyond the entry frame, the first frame beyond it is
wrapped in a frame node that is added to the `awaited_by` set of every
terminal node recorded by the drain (fan-in), and the remaining frames are
wrapped and chained linearly after it, the last having no awaiter. -/
theorem C3_bottom_graft_fanin (env : Env) (cur f0 : Nat) (frest : List Nat)
    (st : DrainSt) (fb : Nat) (brest : List Nat)
    (hdrain : drainLoop env (coopFuel env) (coopInit env cur).1 = some st)
    (hterm : st.terminal.isEmpty = false)
    (hsearch : entrySearch (env.entryFrame cur)
      (topGraft st.g (coopInit env cur).2.1 (coopInit env cur).2.2
        (f0 :: frest)).chain = fb :: brest) :
    ∃ g2,
      get_async_graph env (some cur) f0 frest = GRes.ok g2
        (topGraft st.g (coopInit env cur).2.1 (coopInit env cur).2.2
          (f0 :: frest)).headOpt ∧
      (∀ j, j < (fb :: brest).length →
        kindOf g2 ((topGraft st.g (coopInit env cur).2.1
          (coopInit env cur).2.2 (f0 :: frest)).g.kinds.length + j) =
          NodeKind.frameN ((fb :: brest).getD j 0)) ∧
      (∀ t ∈ st.terminal, awaitedBy g2 t =
        (topGraft st.g (coopInit env cur).2.1 (coopInit env cur).2.2
          (f0 :: frest)).g.kinds.length ::
        awaitedBy (topGraft st.g (coopInit env cur).2.1
          (coopInit env cur).2.2 (f0 :: frest)).g t) ∧
      (∀ j, j + 1 < (fb :: brest).length →
        awaitedBy g2 ((topGraft st.g (coopInit env cur).2.1
          (coopInit env cur).2.2 (f0 :: frest)).g.kinds.length + j) =
          [(topGraft st.g (coopInit env cur).2.1 (coopInit env cur).2.2
            (f0 :: frest)).g.kinds.length + j + 1]) ∧
      awaitedBy g2 ((topGraft st.g (coopInit env cur).2.1
        (coopInit env cur).2.2 (f0 :: frest)).g.kinds.length +
        brest.length) = [] := by
  obtain ⟨hinv0, hgeq, htn0, hth0, _⟩ := coopInit_facts env cur
  obtain ⟨hinvst, ⟨ext, hkext, _⟩⟩ :=
    drainLoop_inv env (coopFuel env) (coopInit env cur).1 st hdrain hinv0
  obtain ⟨hbst, _, _, htermb⟩ := hinvst
  have hnd : st.terminal.Nodup :=
    drainLoop_terminal_nodup env (coopFuel env) _ st hdrain List.nodup_nil
  have hstlen : (coopInit env cur).1.g.kinds.length ≤ st.g.kinds.length := by
    rw [hkext]
    simp
  obtain ⟨ext2, htk, _, htb, _⟩ :=
    topGraft_basic st.g (coopInit env cur).2.1 (coopInit env cur).2.2
      (f0 :: frest) hbst (by omega) (by omega)
  have htrlen : st.g.kinds.length ≤
      (topGraft st.g (coopInit env cur).2.1 (coopInit env cur).2.2
        (f0 :: frest)).g.kinds.length := by
    rw [htk]
    simp
  have htermb2 : ∀ t ∈ st.terminal, t <
      (topGraft st.g (coopInit env cur).2.1 (coopInit env cur).2.2
        (f0 :: frest)).g.kinds.length := by
    intro t ht
    have := htermb t ht
    omega
  obtain ⟨bk, bmem, bj, blast, _⟩ :=
    bottomLoop_spec fb brest
      (topGraft st.g (coopInit env cur).2.1 (coopInit env cur).2.2
        (f0 :: frest)).g st.terminal htb hnd htermb2
  have hres : get_async_graph env (some cur) f0 frest = GRes.ok
      (bottomLoop st.terminal (topGraft st.g (coopInit env cur).2.1
        (coopInit env cur).2.2 (f0 :: frest)).g none (fb :: brest))
      (topGraft st.g (coopInit env cur).2.1 (coopInit env cur).2.2
        (f0 :: frest)).headOpt := by
    simp only [get_async_graph, hdrain, hterm]
    rw [hsearch, if_neg (by simp)]
    rfl
  refine ⟨_, hres, ?_, bmem, bj, blast⟩
  intro j hj
  rw [kindOf_at_append _ _ ((fb :: brest).map NodeKind.frameN) bk j
    (by simp only [List.length_map]; exact hj)]
  exact getD_map_frameN2 (fb :: brest) j hj _

/-- C4 counterexample: on `E1` with chain `[20, 21, 22]` the entry-frame
search fails and the entry-point `ErrorNode` (node 5) is attached to the
task node, but the terminal async node 3 has an empty `awaited_by` set, so
the `ErrorNode` is not reachable from it and node 3 is itself a sink
distinct from the `ErrorNode` — refuting the claim that the `ErrorNode` is
the unique sink reachable from every terminal async node. -/
theorem C4_counterexample :
    get_async_graph E1 (some 0) 20 [21, 22] = GRes.ok G4 (some 0) ∧
    drainLoop E1 (coopFuel E1) (coopInit E1 0).1 = some ST1 ∧
    ST1.terminal = [3] ∧
    kindOf G4 5 = NodeKind.errorN entryText ∧
    awaitedBy G4 3 = [] ∧
    (3 : Nat) ≠ 5 ∧
    ¬ Reach G4 3 5 := by
  refine ⟨by decide, by decide, by decide, by decide, by decide, by decide,
    ?_⟩
  intro h
  rcases Relation.ReflTransGen.cases_head h with heq | ⟨c, hc, _⟩
  · exact absurd heq (by decide)
  · have h2 : awaitedBy G4 3 = [] := by decide
    rw [h2] at hc
    exact absurd hc (List.not_mem_nil c)

/-- C4 amended: when the entry-frame search exhausts the chain, exactly one
`ErrorNode` with text "Could not link current task to entry point." is added
to the graph; it is attached to the `awaited_by` set of the tail node left
by the top graft (the task's tail node when no top graft ran) and is itself
a sink — it is not in general reachable from the terminal async nodes. -/
theorem C4_entry_error_attached_to_tail (env : Env) (cur f0 : Nat)
    (frest : List Nat) (st : DrainSt)
    (hdrain : drainLoop env (coopFuel env) (coopInit env cur).1 = some st)
    (hterm : st.terminal.isEmpty = false)
    (hsearch : entrySearch (env.entryFrame cur)
      (topGraft st.g (coopInit env cur).2.1 (coopInit env cur).2.2
        (f0 :: frest)).chain = []) :
    ∃ g2,
      get_async_graph env (some cur) f0 frest = GRes.ok g2
        (topGraft st.g (coopInit env cur).2.1 (coopInit env cur).2.2
          (f0 :: frest)).headOpt ∧
      g2.kinds.count (NodeKind.errorN entryText) = 1 ∧
      kindOf g2 (topGraft st.g (coopInit env cur).2.1 (coopInit env cur).2.2
        (f0 :: frest)).g.kinds.length = NodeKind.errorN entryText ∧
      (topGraft st.g (coopInit env cur).2.1 (coopInit env cur).2.2
        (f0 :: frest)).g.kinds.length ∈
        awaitedBy g2 (topGraft st.g (coopInit env cur).2.1
          (coopInit env cur).2.2 (f0 :: frest)).tailN ∧
      awaitedBy g2 (topGraft st.g (coopInit env cur).2.1
        (coopInit env cur).2.2 (f0 :: frest)).g.kinds.length = [] := by
  obtain ⟨hinv0, hgeq, htn0, hth0, _⟩ := coopInit_facts env cur
  obtain ⟨hinvst, ⟨ext, hkext, hextne⟩⟩ :=
    drainLoop_inv env (coopFuel env) (coopInit env cur).1 st hdrain hinv0
  obtain ⟨hbst, _, _, _⟩ := hinvst
  have hstlen : (coopInit env cur).1.g.kinds.length ≤ st.g.kinds.length := by
    rw [hkext]
    simp
  obtain ⟨ext2, htk, hext2, htb, httl⟩ :=
    topGraft_basic st.g (coopInit env cur).2.1 (coopInit env cur).2.2
      (f0 :: frest) hbst (by omega) (by omega)
  have hres : get_async_graph env (some cur) f0 frest = GRes.ok
      (addEdge (newNode (topGraft st.g (coopInit env cur).2.1
          (coopInit env cur).2.2 (f0 :: frest)).g
          (NodeKind.errorN entryText)).1
        (topGraft st.g (coopInit env cur).2.1 (coopInit env cur).2.2
          (f0 :: frest)).tailN
        (newNode (topGraft st.g (coopInit env cur).2.1
          (coopInit env cur).2.2 (f0 :: frest)).g
          (NodeKind.errorN entryText)).2)
      (topGraft st.g (coopInit env cur).2.1 (coopInit env cur).2.2
        (f0 :: frest)).headOpt := by
    simp only [get_async_graph, hdrain, hterm]
    rw [hsearch, if_neg (by simp)]
    rfl
  have hg2k : (addEdge (newNode (topGraft st.g (coopInit env cur).2.1
      (coopInit env cur).2.2 (f0 :: frest)).g
      (NodeKind.errorN entryText)).1
      (topGraft st.g (coopInit env cur).2.1 (coopInit env cur).2.2
        (f0 :: frest)).tailN
      (newNode (topGraft st.g (coopInit env cur).2.1
        (coopInit env cur).2.2 (f0 :: frest)).g
        (NodeKind.errorN entryText)).2).kinds =
      (topGraft st.g (coopInit env cur).2.1 (coopInit env cur).2.2
        (f0 :: frest)).g.kinds ++ [NodeKind.errorN entryText] := by
    rw [addEdge_kinds, newNode_kinds]
  have hcount0 : (topGraft st.g (coopInit env cur).2.1
      (coopInit env cur).2.2 (f0 :: frest)).g.kinds.count
      (NodeKind.errorN entryText) = 0 := by
    rw [List.count_eq_zero]
    intro hmem
    rw [htk] at hmem
    rcases List.mem_append.mp hmem with hmem | hmem
    · rw [hkext] at hmem
      rcases List.mem_append.mp hmem with hmem | hmem
      · rw [hgeq] at hmem
        obtain ⟨mk, _, _, _, _, _, _⟩ :=
          makeANodes_spec env cur emptyG edgesBounded_empty
        rw [mk] at hmem
        rcases List.mem_append.mp hmem with hmem2 | hmem2
        · exact absurd hmem2 (by decide)
        · rcases List.mem_cons.mp hmem2 with h3 | h3
          · exact NodeKind.noConfusion h3
          · obtain ⟨f, _, hf⟩ := List.mem_map.mp h3
            exact NodeKind.noConfusion hf
      · exact hextne entryText hmem
    · have := hext2 entryText hmem
      have hne : entryText ≠ exitText := by decide
      exact hne this
  refine ⟨_, hres, ?_, ?_, ?_, ?_⟩
  · rw [hg2k, List.count_append, hcount0]
    simp
  · have hK : (topGraft st.g (coopInit env cur).2.1 (coopInit env cur).2.2
        (f0 :: frest)).g.kinds.length =
        (topGraft st.g (coopInit env cur).2.1 (coopInit env cur).2.2
          (f0 :: frest)).g.kinds.length + 0 := by omega
    rw [hK, kindOf_at_append _ _ [NodeKind.errorN entryText] hg2k 0 (by simp)]
    rfl
  · have := mem_awaitedBy_addEdge (newNode (topGraft st.g
      (coopInit env cur).2.1 (coopInit env cur).2.2 (f0 :: frest)).g
      (NodeKind.errorN entryText)).1
      (topGraft st.g (coopInit env cur).2.1 (coopInit env cur).2.2
        (f0 :: frest)).tailN
      (newNode (topGraft st.g (coopInit env cur).2.1
        (coopInit env cur).2.2 (f0 :: frest)).g
        (NodeKind.errorN entryText)).2
    rw [newNode_id] at this
    exact this
  · rw [awaitedBy_addEdge_other _ _ _ _ (by omega), awaitedBy_newNode]
    exact awaitedBy_fresh _ htb _ (le_refl _)

theorem C5_exit_frame_error_witness :
    ∃ g2 ho,
      get_async_graph E2 (some 0) 20 [] = GRes.ok g2 ho ∧
      kindOf g2 (ST2.g.kinds.length + ([20] : List Nat).length) =
        NodeKind.errorN exitText ∧
      kindOf g2 (ST2.g.kinds.length + ([] : List Nat).length) =
        NodeKind.frameN (([20] : List Nat).getLast (by simp)) ∧
      (ST2.g.kinds.length + ([20] : List Nat).length) ∈
        awaitedBy g2 (ST2.g.kinds.length + ([] : List Nat).length) :=
  C5_exit_frame_error E2 0 20 [] ST2 (by decide) (by decide) (by decide)
    (by decide)

theorem C10_exit_error_not_sink_witness :
    ∃ g2 ho,
      get_async_graph E2 (some 0) 20 [] = GRes.ok g2 ho ∧
      kindOf g2 (ST2.g.kinds.length + ([20] : List Nat).length) =
        NodeKind.errorN exitText ∧
      kindOf g2 (ST2.g.kinds.length + ([20] : List Nat).length + 1) =
        NodeKind.errorN entryText ∧
      awaitedBy g2 (ST2.g.kinds.length + ([20] : List Nat).length) =
        [ST2.g.kinds.length + ([20] : List Nat).length + 1,
          (coopInit E2 0).2.2] :=
  C10_exit_error_not_sink E2 0 20 [] ST2 (by decide) (by decide) (by decide)
    (by decide)

theorem C3_bottom_graft_fanin_witness :
    ∃ g2,
      get_async_graph E3 (some 0) 20 [21, 22] = GRes.ok g2
        (topGraft ST3.g (coopInit E3 0).2.1 (coopInit E3 0).2.2
          [20, 21, 22]).headOpt ∧
      (∀ j, j < ([22] : List Nat).length →
        kindOf g2 ((topGraft ST3.g (coopInit E3 0).2.1
          (coopInit E3 0).2.2 [20, 21, 22]).g.kinds.length + j) =
          NodeKind.frameN (([22] : List Nat).getD j 0)) ∧
      (∀ t ∈ ST3.terminal, awaitedBy g2 t =
        (topGraft ST3.g (coopInit E3 0).2.1 (coopInit E3 0).2.2
          [20, 21, 22]).g.kinds.length ::
        awaitedBy (topGraft ST3.g (coopInit E3 0).2.1
          (coopInit E3 0).2.2 [20, 21, 22]).g t) ∧
      (∀ j, j + 1 < ([22] : List Nat).length →
        awaitedBy g2 ((topGraft ST3.g (coopInit E3 0).2.1
          (coopInit E3 0).2.2 [20, 21, 22]).g.kinds.length + j) =
          [(topGraft ST3.g (coopInit E3 0).2.1 (coopInit E3 0).2.2
            [20, 21, 22]).g.kinds.length + j + 1]) ∧
      awaitedBy g2 ((topGraft ST3.g (coopInit E3 0).2.1
        (coopInit E3 0).2.2 [20, 21, 22]).g.kinds.length +
        ([] : List Nat).length) = [] :=
  C3_bottom_graft_fanin E3 0 20 [21, 22] ST3 22 [] (by decide) (by decide)
    (by decide)

theorem C4_entry_error_attached_to_tail_witness :
    ∃ g2,
      get_async_graph E1 (some 0) 20 [21, 22] = GRes.ok g2
        (topGraft ST1.g (coopInit E1 0).2.1 (coopInit E1 0).2.2
          [20, 21, 22]).headOpt ∧
      g2.kinds.count (NodeKind.errorN entryText) = 1 ∧
      kindOf g2 (topGraft ST1.g (coopInit E1 0).2.1 (coopInit E1 0).2.2
        [20, 21, 22]).g.kinds.length = NodeKind.errorN entryText ∧
      (topGraft ST1.g (coopInit E1 0).2.1 (coopInit E1 0).2.2
        [20, 21, 22]).g.kinds.length ∈
        awaitedBy g2 (topGraft ST1.g (coopInit E1 0).2.1
          (coopInit E1 0).2.2 [20, 21, 22]).tailN ∧
      awaitedBy g2 (topGraft ST1.g (coopInit E1 0).2.1
        (coopInit E1 0).2.2 [20, 21, 22]).g.kinds.length = [] :=
  C4_entry_error_attached_to_tail E1 0 20 [21, 22] ST1 (by decide)
    (by decide) (by decide)

theorem countP_insert_aux (l : List Nat) (p p2 : Nat → Bool) (a : Nat)
    (ha : a ∈ l) (hpa : p a = true) (hp2a : p2 a = false)
    (himp : ∀ x, p2 x = true → p x = true) :
    l.countP p2 + 1 ≤ l.countP p := by
  induction l with
  | nil => simp at ha
  | cons b t ih =>
    rw [List.countP_cons, List.countP_cons]
    by_cases hab : a = b
    · subst hab
      rw [hpa, hp2a]
      simp
      have hmono : t.countP p2 ≤ t.countP p :=
        List.countP_mono_left (fun x _ hx => himp x hx)
      omega
    · have ha2 : a ∈ t := by
        rcases List.mem_cons.mp ha with h2 | h2
        · exact absurd h2 hab
        · exact h2
      have hc : (if p2 b = true then 1 else 0) ≤
          (if p b = true then 1 else 0) := by
        by_cases h2 : p2 b = true
        · rw [if_pos h2, if_pos (himp b h2)]
        · rw [if_neg h2]
          omega
      have := ih ha2
      omega

theorem missing_insert (env : Env) (a2h : List (Nat × Nat)) (a t : Nat)
    (ha : a ∈ env.univ) (hla : lookupA a2h a = none) :
    missingCount env ((a, t) :: a2h) + 1 ≤ missingCount env a2h := by
  apply countP_insert_aux env.univ _ _ a ha
  · rw [hla]
    rfl
  · show (lookupA ((a, t) :: a2h) a).isNone = false
    unfold lookupA
    rw [if_pos rfl]
    rfl
  · intro x hx
    show (lookupA a2h x).isNone = true
    by_cases hax : a = x
    · subst hax
      unfold lookupA at hx
      rw [if_pos rfl] at hx
      exact absurd hx (by simp)
    · unfold lookupA at hx
      rw [if_neg hax] at hx
      exact hx

theorem nodeAwaiters_extends (env : Env) (g g2 : GState) (l : List NodeKind)
    (h : g2.kinds = g.kinds ++ l) (n : Nat) (hn : n < g.kinds.length) :
    nodeAwaiters env g2 n = nodeAwaiters env g n := by
  unfold nodeAwaiters
  rw [kindOf_extends g g2 l h n hn]

/-- The drain's children loop can only shrink the termination measure: each
fresh expansion removes one universe awaitable from the missing set at the
cost of a single queue entry. -/
theorem drainChildren_measure (env : Env) (node : Nat) (as : List Nat)
    (st : DrainSt) (hinv : DInv st) (hnode : node < st.g.kinds.length)
    (hq : ∀ n ∈ st.nodeQ, ∀ b ∈ nodeAwaiters env st.g n, b ∈ env.univ)
    (has : ∀ b ∈ as, b ∈ env.univ)
    (hclosed : ∀ a ∈ env.univ, ∀ b ∈ env.awaiters a, b ∈ env.univ) :
    (∀ n ∈ (drainChildren env node as st).nodeQ,
      ∀ b ∈ nodeAwaiters env (drainChildren env node as st).g n,
        b ∈ env.univ) ∧
    (drainChildren env node as st).nodeQ.length +
      2 * missingCount env (drainChildren env node as st).a2h ≤
      st.nodeQ.length + 2 * missingCount env st.a2h := by
  induction as generalizing st with
  | nil => exact ⟨hq, le_refl _⟩
  | cons a rest ih =>
    obtain ⟨hbd, hqv, hmap, hterm⟩ := hinv
    unfold drainChildren
    split
    · rename_i h hla
      have hh : h < st.g.kinds.length := hmap (a, h) (lookupA_some_mem _ _ _ hla)
      have hinv2 : DInv { st with g := addEdge st.g node h } := by
        refine ⟨edgesBounded_addEdge _ _ _ hbd hnode hh, ?_, ?_, ?_⟩ <;>
          simp only [addEdge_kinds] <;> assumption
      have hq2 : ∀ n ∈ ({ st with g := addEdge st.g node h } : DrainSt).nodeQ,
          ∀ b ∈ nodeAwaiters env ({ st with g := addEdge st.g node h } :
            DrainSt).g n, b ∈ env.univ := by
        intro n hn b hb
        apply hq n hn b
        have : nodeAwaiters env (addEdge st.g node h) n =
            nodeAwaiters env st.g n := by
          unfold nodeAwaiters kindOf
          rw [addEdge_kinds]
        rw [this] at hb
        exact hb
      obtain ⟨i1, i2⟩ := ih _ hinv2 (by simp only [addEdge_kinds]; exact hnode)
        hq2 (fun b hb => has b (List.mem_cons_of_mem a hb))
      exact ⟨i1, i2⟩
    · rename_i hla
      obtain ⟨mk, mb, mt, mh, mtl, mhl, _⟩ := makeANodes_spec env a st.g hbd
      have hlen : (makeAsyncGraphNodes env a st.g).1.kinds.length =
          st.g.kinds.length + 1 + (env.localFrames a).length := by
        rw [mk]
        simp
        omega
      have hkeq : (addEdge (makeAsyncGraphNodes env a st.g).1 node
          (makeAsyncGraphNodes env a st.g).2.2).kinds = st.g.kinds ++
          (NodeKind.awaitableN a :: (env.localFrames a).map NodeKind.frameN)
          := by
        rw [addEdge_kinds, mk]
      have hkt : kindOf (addEdge (makeAsyncGraphNodes env a st.g).1 node
          (makeAsyncGraphNodes env a st.g).2.2)
          (makeAsyncGraphNodes env a st.g).2.1 = NodeKind.awaitableN a := by
        rw [mt]
        have h0 : st.g.kinds.length = st.g.kinds.length + 0 := by omega
        rw [h0, kindOf_at_append _ st.g.kinds _ hkeq 0 (by simp)]
        rfl
      have hinv2 : DInv
          { g := addEdge (makeAsyncGraphNodes env a st.g).1 node
              (makeAsyncGraphNodes env a st.g).2.2
            nodeQ := (makeAsyncGraphNodes env a st.g).2.1 :: st.nodeQ
            terminal := st.terminal
            a2h := (a, (makeAsyncGraphNodes env a st.g).2.1) :: st.a2h } := by
        refine ⟨?_, ?_, ?_, ?_⟩
        · exact edgesBounded_addEdge _ _ _ mb (by omega) mhl
        · intro n hn
          simp only [addEdge_kinds]
          rcases List.mem_cons.mp hn with rfl | hn
          · exact mtl
          · have := hqv n hn
            omega
        · intro p hp
          simp only [addEdge_kinds]
          rcases List.mem_cons.mp hp with rfl | hp
          · exact mtl
          · have := hmap p hp
            omega
        · intro n hn
          simp only [addEdge_kinds]
          have := hterm n hn
          omega
      have hq2 : ∀ n ∈ ((makeAsyncGraphNodes env a st.g).2.1 :: st.nodeQ),
          ∀ b ∈ nodeAwaiters env (addEdge (makeAsyncGraphNodes env a st.g).1
            node (makeAsyncGraphNodes env a st.g).2.2) n, b ∈ env.univ := by
        intro n hn b hb
        rcases List.mem_cons.mp hn with rfl | hn
        · unfold nodeAwaiters at hb
          rw [hkt] at hb
          exact hclosed a (has a (List.mem_cons_self a rest)) b hb
        · apply hq n hn b
          rw [nodeAwaiters_extends env st.g _ _ hkeq n (hqv n hn)] at hb
          exact hb
      obtain ⟨i1, i2⟩ := ih _ hinv2
        (by simp only [addEdge_kinds]; omega) hq2
        (fun b hb => has b (List.mem_cons_of_mem a hb))
      refine ⟨i1, ?_⟩
      have hmiss := missing_insert env st.a2h a
        (makeAsyncGraphNodes env a st.g).2.1
        (has a (List.mem_cons_self a rest)) hla
      dsimp only at i2 ⊢
      simp only [List.length_cons] at i2
      omega

/-- The drain terminates: with fuel at least the current measure, the
worklist loop empties without running out. -/
theorem drainLoop_terminates (env : Env) (fuel : Nat) (st : DrainSt)
    (hinv : DInv st)
    (hq : ∀ n ∈ st.nodeQ, ∀ b ∈ nodeAwaiters env st.g n, b ∈ env.univ)
    (hclosed : ∀ a ∈ env.univ, ∀ b ∈ env.awaiters a, b ∈ env.univ)
    (hfuel : st.nodeQ.length + 2 * missingCount env st.a2h ≤ fuel) :
    ∃ st2, drainLoop env fuel st = some st2 := by
  induction fuel generalizing st with
  | zero =>
    have hq0 : st.nodeQ = [] := by
      have : st.nodeQ.length = 0 := by omega
      exact List.length_eq_zero.mp this
    refine ⟨st, ?_⟩
    unfold drainLoop
    rw [hq0]
  | succ fuel ih =>
    rcases hst : st.nodeQ with _ | ⟨node, q2⟩
    · refine ⟨st, ?_⟩
      unfold drainLoop
      rw [hst]
    · obtain ⟨hbd, hqv, hmap, hterm⟩ := hinv
      have hnode : node < st.g.kinds.length := hqv node (by rw [hst]; simp)
      have hinv2 : DInv { st with nodeQ := q2 } := by
        refine ⟨hbd, ?_, hmap, hterm⟩
        intro n hn
        exact hqv n (by rw [hst]; simp [hn])
      have hq2 : ∀ n ∈ ({ st with nodeQ := q2 } : DrainSt).nodeQ,
          ∀ b ∈ nodeAwaiters env ({ st with nodeQ := q2 } : DrainSt).g n,
            b ∈ env.univ := by
        intro n hn b hb
        exact hq n (by rw [hst]; exact List.mem_cons_of_mem node hn) b hb
      have hinv3 : DInv { st with nodeQ := q2, terminal :=
          (if (nodeAwaiters env st.g node).isEmpty
            then insertN node st.terminal else st.terminal) } := by
        obtain ⟨b1, b2, b3, b4⟩ := hinv2
        refine ⟨b1, b2, b3, ?_⟩
        intro n hn
        split at hn
        · rcases insertN_mem node st.terminal n hn with rfl | hn
          · exact hnode
          · exact hterm n hn
        · exact hterm n hn
      have hstep := drainChildren_measure env node
        (nodeAwaiters env st.g node)
        { st with nodeQ := q2, terminal :=
          (if (nodeAwaiters env st.g node).isEmpty
            then insertN node st.terminal else st.terminal) }
        hinv3 hnode hq2
        (fun b hb => hq node (by rw [hst]; simp) b hb) hclosed
      obtain ⟨hinvs, ⟨exts, hks, _⟩⟩ := drainStep_inv env node
        { st with nodeQ := q2 } hinv2 hnode
      have hqs := hstep.1
      have hms := hstep.2
      have hms2 : (drainStep env node { st with nodeQ := q2 }).nodeQ.length +
          2 * missingCount env
            (drainStep env node { st with nodeQ := q2 }).a2h ≤
          q2.length + 2 * missingCount env st.a2h := by
        exact hms
      obtain ⟨st2, hst2⟩ := ih (drainStep env node { st with nodeQ := q2 })
        hinvs hqs (by
          rw [hst] at hfuel
          simp only [List.length_cons] at hfuel
          omega)
      refine ⟨st2, ?_⟩
      unfold drainLoop
      rw [hst]
      exact hst2

/-- C7: on any finite awaiter-registration graph (a finite universe of
awaitables closed under the awaiter relation, containing the current task),
however cross-referenced, the worklist drain of `get_async_graph`
terminates — the fuelled loop never runs out. -/
theorem C7_drain_terminates (env : Env) (cur f0 : Nat) (frest : List Nat)
    (hcur : cur ∈ env.univ)
    (hclosed : ∀ a ∈ env.univ, ∀ b ∈ env.awaiters a, b ∈ env.univ) :
    get_async_graph env (some cur) f0 frest ≠ GRes.fuelOut := by
  obtain ⟨hinv0, hgeq, htn0, hth0, _⟩ := coopInit_facts env cur
  obtain ⟨mk, _, mt, _, _, _, _⟩ :=
    makeANodes_spec env cur emptyG edgesBounded_empty
  have hkt : kindOf (coopInit env cur).1.g
      (makeAsyncGraphNodes env cur emptyG).2.1 =
      NodeKind.awaitableN cur := by
    rw [hgeq, mt]
    unfold kindOf
    rw [mk]
    simp [emptyG]
  have hq0 : ∀ n ∈ (coopInit env cur).1.nodeQ,
      ∀ b ∈ nodeAwaiters env (coopInit env cur).1.g n, b ∈ env.univ := by
    intro n hn b hb
    rcases List.mem_cons.mp hn with rfl | hn
    · unfold nodeAwaiters at hb
      rw [hkt] at hb
      exact hclosed cur hcur b hb
    · exact absurd hn (List.not_mem_nil n)
  have hfuel : (coopInit env cur).1.nodeQ.length +
      2 * missingCount env (coopInit env cur).1.a2h ≤ coopFuel env := by
    have hle : missingCount env (coopInit env cur).1.a2h ≤
        env.univ.length := List.countP_le_length _
    show 1 + 2 * missingCount env (coopInit env cur).1.a2h ≤
      2 * env.univ.length + 1
    omega
  obtain ⟨st2, hst2⟩ := drainLoop_terminates env (coopFuel env)
    (coopInit env cur).1 hinv0 hq0 hclosed hfuel
  intro hcon
  simp only [get_async_graph, hst2] at hcon
  split at hcon
  · exact GRes.noConfusion hcon
  · exact GRes.noConfusion hcon

theorem C7_drain_terminates_witness :
    get_async_graph E3 (some 0) 20 [21, 22] ≠ GRes.fuelOut :=
  C7_drain_terminates E3 0 20 [21, 22] (by decide) (by decide)

theorem awaitedBy_nodup (g : GState) (hnd : g.edges.Nodup) (n : Nat) :
    (awaitedBy g n).Nodup := by
  unfold awaitedBy
  apply List.Nodup.map_on
  · intro x hx y hy hxy
    rw [List.mem_filter] at hx hy
    have hx1 : x.1 = n := by simpa using hx.2
    have hy1 : y.1 = n := by simpa using hy.2
    exact Prod.ext (hx1.trans hy1.symm) hxy
  · exact hnd.filter _

theorem sum_filter_insert (l : List Nat) (hl : l.Nodup) (f : Nat → Nat)
    (seen : List Nat) (n : Nat) (hn : n ∈ l) (hns : n ∉ seen) :
    ((l.filter (fun x => decide (x ∉ n :: seen))).map f).sum + f n =
    ((l.filter (fun x => decide (x ∉ seen))).map f).sum := by
  induction l with
  | nil => simp at hn
  | cons b t ih =>
    have hndt : t.Nodup := hl.of_cons
    by_cases hbn : b = n
    · subst hbn
      have hbnotm : b ∉ t := (List.nodup_cons.mp hl).1
      rw [List.filter_cons, List.filter_cons]
      rw [if_neg (by simp), if_pos (by simpa using hns)]
      have hagree : t.filter (fun x => decide (x ∉ b :: seen)) =
          t.filter (fun x => decide (x ∉ seen)) := by
        apply List.filter_congr
        intro x hx
        have hxb : x ≠ b := fun hEq => hbnotm (hEq ▸ hx)
        simp [hxb]
      rw [hagree]
      simp
      omega
    · have hnt : n ∈ t := by
        rcases List.mem_cons.mp hn with h2 | h2
        · exact absurd h2.symm hbn
        · exact h2
      rw [List.filter_cons, List.filter_cons]
      by_cases hbs : b ∈ seen
      · rw [if_neg (by simp [hbs]), if_neg (by simp [hbs])]
        exact ih hndt hnt
      · rw [if_pos (by simp [hbs, hbn]), if_pos (by simpa using hbs)]
        simp only [List.map_cons, List.sum_cons]
        have := ih hndt hnt
        omega

theorem pendingDeg_insert (g : GState) (seen : List Nat) (n : Nat)
    (hn : n < g.kinds.length) (hns : n ∉ seen) :
    pendingDeg g (n :: seen) + ((awaitedBy g n).length + 1) =
      pendingDeg g seen := by
  unfold pendingDeg
  exact sum_filter_insert (List.range g.kinds.length) (List.nodup_range _)
    (fun x => (awaitedBy g x).length + 1) seen n
    (List.mem_range.mpr hn) hns

theorem nodeIdF_out (st : DotSt) (n : Nat) : (nodeIdF st n).1.out = st.out := by
  unfold nodeIdF
  split <;> rfl

theorem nodeIdF_seen (st : DotSt) (n : Nat) :
    (nodeIdF st n).1.seen = st.seen := by
  unfold nodeIdF
  split <;> rfl

/-- Effect of the children loop: it appends exactly one edge line per child
(no vertex lines), leaves `seen` alone, and pushes the children onto the
worklist. -/
theorem dotChildren_spec (srcN srcId : Nat) (cs : List Nat) (st : DotSt)
    (q : List Nat) (hnd : cs.Nodup) :
    ∃ el, (dotChildren srcN srcId cs (st, q)).1.out = st.out ++ el ∧
      (∀ n, el.countP (isVertexOf n) = 0) ∧
      (∀ n m, el.countP (isEdgeOf n m) =
        if n = srcN ∧ m ∈ cs then 1 else 0) ∧
      (dotChildren srcN srcId cs (st, q)).1.seen = st.seen ∧
      (∀ x, x ∈ (dotChildren srcN srcId cs (st, q)).2 ↔ x ∈ cs ∨ x ∈ q) ∧
      (dotChildren srcN srcId cs (st, q)).2.length = cs.length + q.length := by
  induction cs generalizing st q with
  | nil =>
    refine ⟨[], by simp [dotChildren], by simp, ?_, by simp [dotChildren],
      by simp [dotChildren], by simp [dotChildren]⟩
    intro n m
    rw [if_neg (by simp)]
    simp
  | cons c cs2 ih =>
    have hcnots : c ∉ cs2 := (List.nodup_cons.mp hnd).1
    have hstep : dotChildren srcN srcId (c :: cs2) (st, q) =
        dotChildren srcN srcId cs2
          ({ (nodeIdF st c).1 with out := (nodeIdF st c).1.out ++
            [DotLine.edge srcN c srcId (nodeIdF st c).2] }, c :: q) := rfl
    obtain ⟨el2, hout, hv, he, hseen, hq, hlen⟩ :=
      ih { (nodeIdF st c).1 with out := (nodeIdF st c).1.out ++
        [DotLine.edge srcN c srcId (nodeIdF st c).2] } (c :: q) hnd.of_cons
    refine ⟨DotLine.edge srcN c srcId (nodeIdF st c).2 :: el2, ?_, ?_, ?_,
      ?_, ?_, ?_⟩
    · rw [hstep, hout]
      dsimp only
      rw [nodeIdF_out]
      simp
    · intro n
      rw [List.countP_cons]
      rw [hv n]
      simp [isVertexOf]
    · intro n m
      rw [List.countP_cons, he n m]
      have hie : (isEdgeOf n m (DotLine.edge srcN c srcId (nodeIdF st c).2)
          = true) ↔ (srcN = n ∧ c = m) := by
        simp [isEdgeOf]
      by_cases hn : n = srcN
      · subst hn
        by_cases hm : m = c
        · subst hm
          rw [if_neg (fun hcon => hcnots hcon.2),
            if_pos (hie.mpr ⟨rfl, rfl⟩),
            if_pos ⟨rfl, List.mem_cons_self _ cs2⟩]
        · by_cases hm2 : m ∈ cs2
          · rw [if_pos ⟨rfl, hm2⟩,
              if_neg (fun hcon => hm (hie.mp hcon).2.symm),
              if_pos ⟨rfl, List.mem_cons_of_mem c hm2⟩]
          · rw [if_neg (fun hcon => hm2 hcon.2),
              if_neg (fun hcon => hm (hie.mp hcon).2.symm),
              if_neg (fun hcon =>
                (List.mem_cons.mp hcon.2).elim (fun h3 => hm h3) hm2)]
      · rw [if_neg (fun hcon => hn hcon.1),
          if_neg (fun hcon => hn (hie.mp hcon).1.symm),
          if_neg (fun hcon => hn hcon.1)]
    · rw [hstep, hseen]
      dsimp only
      rw [nodeIdF_seen]
    · intro x
      rw [hstep, hq x]
      constructor
      · intro h2
        rcases h2 with h2 | h2
        · exact Or.inl (List.mem_cons_of_mem c h2)
        · rcases List.mem_cons.mp h2 with rfl | h2
          · exact Or.inl (List.mem_cons_self x cs2)
          · exact Or.inr h2
      · intro h2
        rcases h2 with h2 | h2
        · rcases List.mem_cons.mp h2 with rfl | h2
          · exact Or.inr (List.mem_cons_self x q)
          · exact Or.inl h2
        · exact Or.inr (List.mem_cons_of_mem c h2)
    · rw [hstep, hlen]
      simp
      omega

theorem dotLoop_succ_seen (g : GState) (ftext atext : Nat → List Char)
    (fuel n : Nat) (q2 : List Nat) (st : DotSt) (hn : n ∈ st.seen) :
    dotLoop g ftext atext (fuel + 1) (n :: q2) st =
      dotLoop g ftext atext fuel q2 st := by
  conv_lhs => rw [dotLoop]
  rw [if_pos hn]

theorem dotLoop_succ_new (g : GState) (ftext atext : Nat → List Char)
    (fuel n : Nat) (q2 : List Nat) (st : DotSt) (hn : n ∉ st.seen) :
    dotLoop g ftext atext (fuel + 1) (n :: q2) st =
      dotLoop g ftext atext fuel
        (dotChildren n (nodeIdF { st with seen := n :: st.seen } n).2
          (awaitedBy g n)
          ({ (nodeIdF { st with seen := n :: st.seen } n).1 with
              out := (nodeIdF { st with seen := n :: st.seen } n).1.out ++
                [DotLine.vertex n
                  (nodeIdF { st with seen := n :: st.seen } n).2
                  (dotEscape (nodeText ftext atext (kindOf g n)))] },
            q2)).2
        (dotChildren n (nodeIdF { st with seen := n :: st.seen } n).2
          (awaitedBy g n)
          ({ (nodeIdF { st with seen := n :: st.seen } n).1 with
              out := (nodeIdF { st with seen := n :: st.seen } n).1.out ++
                [DotLine.vertex n
                  (nodeIdF { st with seen := n :: st.seen } n).2
                  (dotEscape (nodeText ftext atext (kindOf g n)))] },
            q2)).1 := by
  conv_lhs => rw [dotLoop]
  rw [if_neg hn]

/-- With enough fuel the serializer loop drains the worklist while
maintaining the invariant. -/
theorem dotLoop_invariant (g : GState) (ftext atext : Nat → List Char)
    (hB : EdgesBounded g) (hnd : g.edges.Nodup) (head : Nat) :
    ∀ fuel q st, DotInv g head st q → dotMeasure g st.seen q ≤ fuel →
    ∃ st2, dotLoop g ftext atext fuel q st = some st2 ∧
      DotInv g head st2 [] := by
  intro fuel
  induction fuel with
  | zero =>
    intro q st hinv hm
    match q with
    | [] => exact ⟨st, rfl, hinv⟩
    | n :: q2 =>
      exfalso
      unfold dotMeasure at hm
      simp at hm
  | succ fuel ih =>
    intro q st hinv hm
    match q with
    | [] => exact ⟨st, rfl, hinv⟩
    | n :: q2 =>
      obtain ⟨hq, hs, hnodup, hcl, hhd, hv, he⟩ := hinv
      by_cases hn : n ∈ st.seen
      · rw [dotLoop_succ_seen g ftext atext fuel n q2 st hn]
        refine ih q2 st ⟨?_, hs, hnodup, ?_, ?_, hv, he⟩ ?_
        · intro x hx
          exact hq x (List.mem_cons_of_mem n hx)
        · intro a ha m hmaw
          rcases hcl a ha m hmaw with h2 | h2
          · exact Or.inl h2
          · rcases List.mem_cons.mp h2 with rfl | h3
            · exact Or.inl hn
            · exact Or.inr h3
        · rcases hhd with h2 | h2
          · exact Or.inl h2
          · rcases List.mem_cons.mp h2 with rfl | h3
            · exact Or.inl hn
            · exact Or.inr h3
        · unfold dotMeasure at hm ⊢
          simp only [List.length_cons] at hm
          omega
      · have hnb : n < g.kinds.length := (hq n (List.mem_cons_self n q2)).1
        have hnr : Reach g head n := (hq n (List.mem_cons_self n q2)).2
        rw [dotLoop_succ_new g ftext atext fuel n q2 st hn]
        obtain ⟨el, hout, hvel, heel, hseenp, hqp, hlenp⟩ :=
          dotChildren_spec n (nodeIdF { st with seen := n :: st.seen } n).2
            (awaitedBy g n)
            { (nodeIdF { st with seen := n :: st.seen } n).1 with
              out := (nodeIdF { st with seen := n :: st.seen } n).1.out ++
                [DotLine.vertex n
                  (nodeIdF { st with seen := n :: st.seen } n).2
                  (dotEscape (nodeText ftext atext (kindOf g n)))] }
            q2 (awaitedBy_nodup g hnd n)
        simp only [nodeIdF_out, nodeIdF_seen] at hout hseenp hqp hlenp
        simp only [nodeIdF_out, nodeIdF_seen]
        refine ih _ _ ⟨?_, ?_, ?_, ?_, ?_, ?_, ?_⟩ ?_
        · intro x hx
          rcases (hqp x).mp hx with h2 | h2
          · exact ⟨(hB _ ((mem_awaitedBy g n x).mp h2)).2, hnr.tail h2⟩
          · exact hq x (List.mem_cons_of_mem n h2)
        · rw [hseenp]
          intro x hx
          rcases List.mem_cons.mp hx with rfl | h2
          · exact ⟨hnb, hnr⟩
          · exact hs x h2
        · rw [hseenp]
          exact List.nodup_cons.mpr ⟨hn, hnodup⟩
        · rw [hseenp]
          intro a ha m hmaw
          rcases List.mem_cons.mp ha with rfl | ha2
          · exact Or.inr ((hqp m).mpr (Or.inl hmaw))
          · rcases hcl a ha2 m hmaw with h3 | h3
            · exact Or.inl (List.mem_cons_of_mem n h3)
            · rcases List.mem_cons.mp h3 with rfl | h4
              · exact Or.inl (List.mem_cons_self m st.seen)
              · exact Or.inr ((hqp m).mpr (Or.inr h4))
        · rw [hseenp]
          rcases hhd with h2 | h2
          · exact Or.inl (List.mem_cons_of_mem n h2)
          · rcases List.mem_cons.mp h2 with rfl | h3
            · exact Or.inl (List.mem_cons_self head st.seen)
            · exact Or.inr ((hqp head).mpr (Or.inr h3))
        · intro a
          rw [hout, hseenp, List.countP_append, List.countP_append, hvel a,
            hv a]
          by_cases han : a = n
          · subst han
            simp [List.countP_cons, isVertexOf, hn]
          · by_cases has : a ∈ st.seen
            · simp [List.countP_cons, isVertexOf, List.mem_cons, han, has,
                Ne.symm (Ne.intro han)]
            · simp [List.countP_cons, isVertexOf, List.mem_cons, han, has,
                Ne.symm (Ne.intro han)]
        · intro a b
          rw [hout, hseenp, List.countP_append, List.countP_append, heel a b,
            he a b]
          by_cases han : a = n
          · subst han
            by_cases hbm : b ∈ awaitedBy g a
            · simp [List.countP_cons, isEdgeOf, hn, hbm]
            · simp [List.countP_cons, isEdgeOf, hn, hbm]
          · by_cases has : a ∈ st.seen
            · by_cases hbm : b ∈ awaitedBy g a
              · simp [List.countP_cons, isEdgeOf, List.mem_cons, han, has,
                  hbm]
              · simp [List.countP_cons, isEdgeOf, List.mem_cons, han, has,
                  hbm]
            · by_cases hbm : b ∈ awaitedBy g a
              · simp [List.countP_cons, isEdgeOf, List.mem_cons, han, has,
                  hbm]
              · simp [List.countP_cons, isEdgeOf, List.mem_cons, han, has,
                  hbm]
        · unfold dotMeasure at hm ⊢
          rw [hlenp, hseenp]
          have hpd := pendingDeg_insert g st.seen n hnb hn
          simp only [List.length_cons] at hm
          omega

/-- Any set containing the head and closed under `awaited_by` contains every
reachable node. -/
theorem reach_of_closed (g : GState) (S : List Nat) (head : Nat)
    (hh : head ∈ S) (hc : ∀ n ∈ S, ∀ m ∈ awaitedBy g n, m ∈ S) :
    ∀ x, Reach g head x → x ∈ S := by
  intro x hx
  induction hx with
  | refl => exact hh
  | tail _ h2 ih => exact hc _ ih _ h2

/-- C9: for every finite input graph — including diamonds and self-loops —
the serializer loop of `async_graph_to_dot` terminates within the provided
fuel (so the function returns a document), and its final visited set is
exactly the set of nodes reachable from the head along `awaited_by` edges;
the emitted lines contain exactly one vertex declaration per visited
(= reachable) node and exactly one edge line per `awaited_by` edge leaving a
visited node, duplicates being prevented by the visited-set skip. -/
theorem C9_dot_emits_exactly_once (g : GState) (ftext atext : Nat → List Char)
    (head : Nat) (hB : EdgesBounded g) (hnd : g.edges.Nodup)
    (hh : head < g.kinds.length) :
    ∃ st, dotLoop g ftext atext (dotMeasure g [] [head]) [head]
        ⟨[], [], 0, []⟩ = some st ∧
      async_graph_to_dot g ftext atext head ≠ none ∧
      (∀ x, x ∈ st.seen ↔ Reach g head x) ∧
      (∀ n, st.out.countP (isVertexOf n) = if n ∈ st.seen then 1 else 0) ∧
      (∀ n m, st.out.countP (isEdgeOf n m) =
        if n ∈ st.seen ∧ m ∈ awaitedBy g n then 1 else 0) := by
  have hinv0 : DotInv g head ⟨[], [], 0, []⟩ [head] := by
    refine ⟨?_, ?_, ?_, ?_, ?_, ?_, ?_⟩
    · intro x hx
      rcases List.mem_cons.mp hx with rfl | h2
      · exact ⟨hh, Relation.ReflTransGen.refl⟩
      · simp at h2
    · intro x hx
      simp at hx
    · exact List.nodup_nil
    · intro x hx
      simp at hx
    · exact Or.inr (List.mem_cons_self head [])
    · intro a
      simp
    · intro a b
      simp
  obtain ⟨st2, hrun, hq2, hs2, hnd2, hcl2, hhd2, hv2, he2⟩ :=
    dotLoop_invariant g ftext atext hB hnd head (dotMeasure g [] [head])
      [head] ⟨[], [], 0, []⟩ hinv0 (Nat.le_refl _)
  have hhead2 : head ∈ st2.seen := by
    rcases hhd2 with h2 | h2
    · exact h2
    · simp at h2
  have hclosed2 : ∀ a ∈ st2.seen, ∀ m ∈ awaitedBy g a, m ∈ st2.seen := by
    intro a ha m hm2
    rcases hcl2 a ha m hm2 with h3 | h3
    · exact h3
    · simp at h3
  refine ⟨st2, hrun, ?_, ?_, hv2, he2⟩
  · unfold async_graph_to_dot
    rw [hrun]
    simp
  · intro x
    constructor
    · intro hx
      exact (hs2 x hx).2
    · exact reach_of_closed g st2.seen head hhead2 hclosed2 x

/-- Instantiation of C9 on the concrete cooperative graph `G4` (a diamond):
the serializer terminates and counts come out as stated. -/
theorem C9_dot_emits_exactly_once_witness :
    ∃ st, dotLoop G4 (fun x => []) (fun x => [])
        (dotMeasure G4 [] [0]) [0] ⟨[], [], 0, []⟩ = some st ∧
      async_graph_to_dot G4 (fun x => []) (fun x => []) 0 ≠ none ∧
      (∀ x, x ∈ st.seen ↔ Reach G4 0 x) ∧
      (∀ n, st.out.countP (isVertexOf n) = if n ∈ st.seen then 1 else 0) ∧
      (∀ n m, st.out.countP (isEdgeOf n m) =
        if n ∈ st.seen ∧ m ∈ awaitedBy G4 n then 1 else 0) :=
  C9_dot_emits_exactly_once G4 (fun x => []) (fun x => []) 0
    (by unfold EdgesBounded; decide) (by decide) (by decide)

end AsyncGraph

